import Mathlib

/-!
# Verification of the authkeysync synchronization engine

A shallow embedding, in Lean 4, of the core of the `authkeysync` repository:
the key-line parser (`internal/keyparser`), the remote source fetcher
(`internal/keyfetcher`), the content builder / deduplicator and the per-user
sync pipeline (`internal/sync`), the backup manager (`internal/backup`), the
atomic file writer (`internal/sshfile`) and the exit-code computation of the
CLI entry point (`cmd`).

Modelling conventions:
* Go strings are Lean `String`s; byte-level operations are carried out on
  `String.data` (one `Char` per byte/rune; all repository-generated text is
  ASCII, where the two coincide).
* The filesystem visible to one identity's pipeline is a small explicit state
  (`FSState`): the `authorized_keys` content (or `none` when the file is
  absent) and the listing of the backup directory.  Filesystem operations
  that the code performs are modelled by their effect on that state;
  operations whose failure the code turns into an error return are modelled
  on their success path, since the claims under study concern the success
  and early-abort paths.
* Network traffic is an oracle: each configured source comes with an
  `HTTPOutcome` (a transport error — including timeout and cancellation — or
  a status code and body) and the fetcher is a pure function of that outcome,
  mirroring `Fetch` from `resp, err := f.client.Do(req)` onwards.
* `bufio.Scanner` with `ScanLines` is modelled as newline splitting
  (`splitLines`) together with the scanner's default 64 KiB token cap
  (`maxScanTokenSize`): a line reaching the cap stops the scan with
  `bufio.ErrTooLong` (`scanTooLong`), which `Parse` surfaces as a failure;
  carriage-return stripping is absorbed by `goTrim`, which the code applies
  to every scanned token before any other use.
-/

namespace AuthKeySync

/-! ## Go string primitives -/

/-- Go's `unicode.IsSpace`: the Unicode White_Space property (the code points
`\t \n \v \f \r ' '  U+0085 U+00A0 U+1680 U+2000..U+200A U+2028 U+2029
U+202F U+205F U+3000`). Used by `strings.TrimSpace` and `strings.Fields`. -/
def goIsSpace (c : Char) : Bool :=
  let n := c.toNat
  n == 32 || n == 9 || n == 10 || n == 11 || n == 12 || n == 13 ||
  n == 0x85 || n == 0xA0 || n == 0x1680 ||
  (decide (0x2000 ≤ n) && decide (n ≤ 0x200A)) ||
  n == 0x2028 || n == 0x2029 || n == 0x202F || n == 0x205F || n == 0x3000

/-- Leading and trailing White_Space removal on character lists. -/
def trimChars (l : List Char) : List Char :=
  ((l.dropWhile goIsSpace).reverse.dropWhile goIsSpace).reverse

/-- Go's `strings.TrimSpace`. -/
def goTrim (s : String) : String := ⟨trimChars s.data⟩

/-- Counter for `strings.Fields`: number of maximal runs of non-space
characters.  The flag records whether the previous character was inside a
field. -/
def fieldsCount : List Char → Bool → Nat
  | [], _ => 0
  | c :: rest, inField =>
    if goIsSpace c then fieldsCount rest false
    else (if inField then 0 else 1) + fieldsCount rest true

/-- `len(strings.Fields(s))`. -/
def goFieldsCount (s : String) : Nat := fieldsCount s.data false

/-- `strings.HasPrefix s p` for a one-character p: first character test. -/
def startsWithChar (s : String) (c : Char) : Bool := s.data.head? == some c

/-- Go's `strings.HasPrefix`. -/
def strStartsWith (s p : String) : Bool := List.isPrefixOf p.data s.data

/-- `bufio.Scanner`/`ScanLines` token stream: split at `'\n'`; a trailing
newline produces no final empty token; empty input produces no tokens. -/
def splitLinesAux : List Char → List Char → List (List Char)
  | [], acc => if acc.isEmpty then [] else [acc.reverse]
  | c :: rest, acc =>
    if c = '\n' then acc.reverse :: splitLinesAux rest []
    else splitLinesAux rest (c :: acc)

/-- The lines scanned from `s` (see `splitLinesAux`). -/
def splitLines (s : String) : List String :=
  (splitLinesAux s.data []).map (fun l => ⟨l⟩)

/-- `bufio.MaxScanTokenSize` (64 KiB): the default token cap of
`bufio.Scanner`, in force because `keyparser.Parse` never calls
`scanner.Buffer`. -/
def maxScanTokenSize : Nat := 64 * 1024

/-- Whether scanning `content` aborts with `bufio.ErrTooLong`: the scanner
buffers at most `MaxScanTokenSize` bytes, so a line of that size or more —
its terminating newline lying beyond a full buffer, or an unterminated
final line filling it — makes `Scan` return false with `ErrTooLong`,
regardless of where in the input that line sits. -/
def scanTooLong (content : String) : Bool :=
  (splitLinesAux content.data []).any
    (fun l => decide (maxScanTokenSize ≤ l.length))

/-! ## `internal/keyparser` -/

/-- `keyparser.ParsedKey`. -/
structure ParsedKey where
  line : String
  lineNumber : Nat
  deriving DecidableEq, Repr

/-- `keyparser.ParseResult`. -/
structure ParseResult where
  keys : List ParsedKey
  discardedLines : Nat
  deriving DecidableEq, Repr

/-- `keyparser.isValidKey` on an already trimmed line: nonempty, not a
comment (`#`), not an HTML/JSON error body (`<`, `{`, `[`), and at least two
whitespace-separated fields. -/
def isValidKey (line : String) : Bool :=
  if line == "" then false
  else if startsWithChar line '#' then false
  else if startsWithChar line '<' || startsWithChar line '{' ||
      startsWithChar line '[' then false
  else decide (2 ≤ goFieldsCount line)

/-- The scan loop of `keyparser.Parse`: trim each token, keep valid lines
with their 1-indexed line number, count non-empty invalid lines as
discarded. -/
def parseLoop : List String → Nat → ParseResult
  | [], _ => { keys := [], discardedLines := 0 }
  | raw :: rest, lineNumber =>
    let line := goTrim raw
    let r := parseLoop rest (lineNumber + 1)
    if isValidKey line then
      { keys := ⟨line, lineNumber⟩ :: r.keys, discardedLines := r.discardedLines }
    else if line ≠ "" then
      { keys := r.keys, discardedLines := r.discardedLines + 1 }
    else r

deriving instance DecidableEq for Except

/-- `keyparser.ParseString`.  A `strings.Reader` never yields a read error,
but `scanner.Err()` still reports `bufio.ErrTooLong` when some line reaches
the 64 KiB token cap, and `Parse` then returns `(nil, err)` — the keys
accumulated before the over-long line are discarded with everything else. -/
def parseString (content : String) : Except String ParseResult :=
  if scanTooLong content then .error "bufio.Scanner: token too long"
  else .ok (parseLoop (splitLines content) 1)

example : parseString "ssh-ed25519 AAAA user@host" =
    .ok { keys := [⟨"ssh-ed25519 AAAA user@host", 1⟩],
          discardedLines := 0 } := by decide

example : parseString "# comment\n\n<html>\nonefield\nssh-rsa BBB x@y\n" =
    .ok { keys := [⟨"ssh-rsa BBB x@y", 5⟩], discardedLines := 3 } := by decide

/-! ## `internal/keyfetcher` -/

/-- `keyfetcher.MaxResponseSize` (10 MiB). -/
def maxResponseSize : Nat := 10 * 1024 * 1024

/-- The slice of `config.Source` the fetch result exposes.  Method, headers,
body and timeout shape only the outgoing request, which the `HTTPOutcome`
oracle already accounts for. -/
structure Source where
  url : String
  deriving DecidableEq, Repr

/-- The observable outcome of `f.client.Do(req)`: a transport-level error
(connection failure, timeout, context cancellation) or a response with a
status code and a body. -/
inductive HTTPOutcome where
  | transportError (msg : String)
  | response (status : Nat) (body : String)
  deriving DecidableEq, Repr

/-- `keyfetcher.FetchResult`. -/
structure FetchResult where
  source : Source
  keys : List ParsedKey
  error : Option String
  statusCode : Nat
  discardedLines : Nat
  deriving DecidableEq, Repr

/-- `keyfetcher.Fetch` from the `client.Do` call onwards: transport error →
error result; non-200 status → error result carrying the code; otherwise the
body is read through `io.LimitReader(·, MaxResponseSize)` — i.e. truncated to
the first `MaxResponseSize` bytes, with no error — and parsed; a parse
failure (a line of 64 KiB or more in the truncated body) becomes a
`failed to parse keys` error result. -/
def fetchOne (src : Source) (o : HTTPOutcome) : FetchResult :=
  match o with
  | .transportError msg =>
    { source := src, keys := [], error := some ("request failed: " ++ msg),
      statusCode := 0, discardedLines := 0 }
  | .response status body =>
    if status ≠ 200 then
      { source := src, keys := [], error := some "unexpected status code",
        statusCode := status, discardedLines := 0 }
    else
      let limited : String := ⟨body.data.take maxResponseSize⟩
      match parseString limited with
      | .error e =>
        { source := src, keys := [],
          error := some ("failed to parse keys: " ++ e),
          statusCode := status, discardedLines := 0 }
      | .ok pr =>
        { source := src, keys := pr.keys, error := none,
          statusCode := status, discardedLines := pr.discardedLines }

/-- `keyfetcher.FetchAll`: sources in declared order, stop at the first
failing source; the failing source's result is still appended before the
error return. -/
def fetchAll : List (Source × HTTPOutcome) → List FetchResult × Option String
  | [] => ([], none)
  | (src, o) :: rest =>
    let r := fetchOne src o
    match r.error with
    | some e => ([r], some ("source " ++ src.url ++ " failed: " ++ e))
    | none =>
      let (rs, err) := fetchAll rest
      (r :: rs, err)

/-! ## `internal/sync` — content builder / deduplicator -/

/-- `sync.DuplicateInfo`. -/
structure DuplicateInfo where
  key : String
  firstSource : String
  duplicateSource : String
  deriving DecidableEq, Repr

/-- `sync.ContentStats`. -/
structure ContentStats where
  totalKeys : Nat
  localKeys : Nat
  duplicates : List DuplicateInfo
  deriving DecidableEq, Repr

/-- The per-source kept-key record (`sourceKeys` in `buildContent`). -/
structure SourceKeys where
  url : String
  keys : List String
  deriving DecidableEq, Repr

/-- Lookup in the `seenKeys` map (`map[string]string`, queried by exact
trimmed text). -/
def seenFind : List (String × String) → String → Option String
  | [], _ => none
  | (k, v) :: rest, key => if k = key then some v else seenFind rest key

/-- The inner loop of `buildContent` for one origin `url`: walk the parsed
keys; a line already in `seenKeys` is dropped and recorded as a duplicate
with its first origin; a new line is mapped to this origin and kept.  Also
used for the local-preservation pass with `url = "Local"`. -/
def dedupSourceKeys (url : String) :
    List ParsedKey → List (String × String) →
      List String × List (String × String) × List DuplicateInfo
  | [], seen => ([], seen, [])
  | k :: rest, seen =>
    match seenFind seen k.line with
    | some first =>
      let (kept, seen', dups) := dedupSourceKeys url rest seen
      (kept, seen', ⟨k.line, first, url⟩ :: dups)
    | none =>
      let (kept, seen', dups) := dedupSourceKeys url rest (seen ++ [(k.line, url)])
      (k.line :: kept, seen', dups)

/-- The outer loop of `buildContent` over the fetch results, in declaration
order; a source whose kept list is empty contributes no section. -/
def processSources :
    List FetchResult → List (String × String) →
      List SourceKeys × List (String × String) × List DuplicateInfo
  | [], seen => ([], seen, [])
  | fr :: rest, seen =>
    let (kept, seen', dups) := dedupSourceKeys fr.source.url fr.keys seen
    let (sks, seen'', dups') := processSources rest seen'
    (if kept.isEmpty then sks else ⟨fr.source.url, kept⟩ :: sks, seen'', dups ++ dups')

/-- The horizontal-rule comment line of the rendered header. -/
def hrLine : String :=
  "# ──────────────────────────────────────────────────────────────────"

/-- The fixed header of the rendered file: tool identity, version/build
metadata and the UTC sync timestamp. -/
def headerLines (ver commit date ts : String) : List String :=
  [hrLine,
   "# Generated by AuthKeySync",
   "# Version:   " ++ ver,
   "# Commit:    " ++ commit,
   "# Built:     " ++ date,
   "# Last sync: " ++ ts,
   "# More info: https://github.com/eduardolat/authkeysync",
   hrLine]

/-- The local keys the `err == nil` guard of `buildContent` lets through:
the parsed keys of the existing content when `keyparser.ParseString`
succeeds, nothing when it fails (a 64 KiB+ line silently discards every
local key). -/
def localParsedKeys (existing : String) : List ParsedKey :=
  match parseString existing with
  | .ok pr => pr.keys
  | .error _ => []

/-- The local-preservation pass of `buildContent`: when the policy enables
it and the existing target content is non-empty, parse it and — only when
the parse succeeded (`err == nil`) — apply the same first-occurrence rule
with origin label `"Local"`; on a parse failure nothing is preserved. -/
def localPass (preserveLocal : Bool) (existing : String)
    (seen : List (String × String)) :
    List String × List (String × String) × List DuplicateInfo :=
  if preserveLocal ∧ existing ≠ "" then
    match parseString existing with
    | .ok pr => dedupSourceKeys "Local" pr.keys seen
    | .error _ => ([], seen, [])
  else ([], seen, [])

/-- The sequence of lines `buildContent` writes (each with a trailing
newline): header, then per nonempty source a blank line, a `# Source:` line
and its kept keys, then — if any local keys were preserved — a blank line,
the `# Local (preserved)` line and those keys. -/
def buildLines (sks : List SourceKeys) (localKeys : List String)
    (ver commit date ts : String) : List String :=
  headerLines ver commit date ts ++
  (sks.map (fun sk => ["", "# Source: " ++ sk.url] ++ sk.keys)).flatten ++
  (if localKeys.isEmpty then [] else ["", "# Local (preserved)"] ++ localKeys)

/-- `sync.buildContent`: deduplicate the remote fetch results in order, then
the preserved local keys, and render the byte content together with its
statistics.  `existing` is the current target-file content
(`sshfile.ReadContent`, empty when the file is absent). -/
def buildContent (frs : List FetchResult) (existing : String)
    (preserveLocal : Bool) (ver commit date ts : String) :
    String × ContentStats :=
  let (sks, seen, dups) := processSources frs []
  let (localKeys, _, dups') := localPass preserveLocal existing seen
  let lines := buildLines sks localKeys ver commit date ts
  let content := String.join (lines.map (· ++ "\n"))
  (content,
   { totalKeys := (sks.map (fun sk => sk.keys.length)).sum + localKeys.length,
     localKeys := localKeys.length,
     duplicates := dups ++ dups' })

/-! ## Filesystem state of one identity's pipeline -/

/-- One entry of the backup directory listing (`os.ReadDir`). -/
structure DirEntry where
  name : String
  isDir : Bool
  deriving DecidableEq, Repr

/-- The durable state one identity's pipeline touches: the target
`authorized_keys` content (`none` when the file is absent) and the names of
the files in its backup directory. -/
structure FSState where
  target : Option String
  backups : List String
  deriving DecidableEq, Repr

/-- `sshfile.ReadContent`: the current target content, empty when the file
does not exist. -/
def readContent (st : FSState) : String := st.target.getD ""

/-! ## `internal/backup` -/

/-- `backup.CreateBackup` on the modelled state: no-op when the target file
is absent or empty; otherwise a new backup file named
`authorized_keys_<timestamp>_<id>` is added to the backup directory and its
path returned. -/
def createBackup (st : FSState) (ts id : String) : FSState × String :=
  match st.target with
  | none => (st, "")
  | some c =>
    if c = "" then (st, "")
    else
      let name := "authorized_keys_" ++ ts ++ "_" ++ id
      ({ st with backups := st.backups ++ [name] },
       "authorized_keys_backups/" ++ name)

/-- `backup.RotateBackups` over a directory listing: a negative retention is
a usage error; otherwise the non-directory entries whose name carries the
backup name stem `authorized_keys_` are sorted by name (Go's `sort.Strings`:
the unique ascending ordering) and the oldest beyond the retention count are
deleted; the deleted names are returned in deletion order. -/
def rotateBackups (entries : List DirEntry) (retentionCount : Int) :
    Except String (List String) :=
  if retentionCount < 0 then .error "retention count cannot be negative"
  else
    let backups := (entries.filter
      (fun e => !e.isDir && strStartsWith e.name "authorized_keys_")).map (·.name)
    let sorted := List.insertionSort (· ≤ ·) backups
    let deleteCount : Int := (backups.length : Int) - retentionCount
    if deleteCount ≤ 0 then .ok []
    else .ok (sorted.take deleteCount.toNat)

/-- The orchestrator's rotation step: deleted backups are removed from the
directory; a rotation error is only logged and leaves the state as is. -/
def applyRotate (st : FSState) (retentionCount : Int) : FSState :=
  match rotateBackups (st.backups.map (fun n => ⟨n, false⟩)) retentionCount with
  | .error _ => st
  | .ok deleted => { st with backups := st.backups.filter (fun n => n ∉ deleted) }

/-! ## `internal/sshfile` -/

/-- `sshfile.WriteResult`. -/
structure WriteResult where
  changed : Bool
  deriving DecidableEq, Repr

/-- `sshfile.WriteAtomic` on the modelled state: unchanged short-circuit when
the content equals the current on-disk bytes, otherwise the
write-temp-then-rename sequence, whose observable effect is the replacement
of the target content. -/
def writeAtomic (st : FSState) (content : String) : FSState × WriteResult :=
  match st.target with
  | some c =>
    if c = content then (st, ⟨false⟩)
    else ({ st with target := some content }, ⟨true⟩)
  | none => ({ st with target := some content }, ⟨true⟩)

/-! ## `internal/userinfo` and `internal/config` -/

/-- The classified failures of `userinfo.Lookup`: the four sentinel errors
plus the generic lookup failure (unknown lookup error, unparsable uid/gid,
unstattable `.ssh`). -/
inductive LookupErr where
  | userNotFound
  | noHomeDir
  | sshDirNotFound
  | sshDirNotDir
  | other (msg : String)
  deriving DecidableEq, Repr

/-- The policy values as the orchestrator reads them through
`IsBackupEnabled`, `GetBackupRetentionCount` and `IsPreserveLocalKeys`
(defaults already applied). -/
structure Policy where
  backupEnabled : Bool
  backupRetentionCount : Int
  preserveLocalKeys : Bool
  deriving DecidableEq, Repr

/-! ## `internal/sync` — per-user pipeline and run loop -/

/-- `sync.UserResult`. -/
structure UserResult where
  username : String := ""
  skipped : Bool := false
  skipReason : String := ""
  error : Option String := none
  keysWritten : Nat := 0
  localKeys : Nat := 0
  changed : Bool := false
  backupPath : String := ""
  deriving DecidableEq, Repr

/-- The non-deterministic inputs of one identity's pipeline: the outcome of
the user lookup and, per configured source in declaration order, the outcome
of its HTTP request. -/
structure UserEnv where
  lookup : Except LookupErr Unit
  srcOuts : List (Source × HTTPOutcome)
  deriving Repr

/-- The injected providers `buildContent` and the backup manager draw their
timestamps and random suffixes from, plus the build metadata of the header. -/
structure RenderEnv where
  ver : String
  commit : String
  date : String
  ts : String
  backupTs : String
  backupId : String
  deriving DecidableEq, Repr

/-- `sync.syncUser`: resolve (skip on `ErrUserNotFound`, `ErrSSHDirNotFound`
and `ErrSSHDirNotDir`, fail on any other lookup error), fetch all sources or
abort, build the content, stop after logging in dry-run mode, otherwise
backup-and-rotate when backups are enabled and the non-empty existing
content differs from the new content, and finally write atomically. -/
def syncUser (env : UserEnv) (pol : Policy) (dryRun : Bool) (re : RenderEnv)
    (st : FSState) : FSState × UserResult :=
  match env.lookup with
  | .error .userNotFound =>
    (st, { skipped := true, skipReason := "user not found in system" })
  | .error .sshDirNotFound =>
    (st, { skipped := true, skipReason := ".ssh directory not found" })
  | .error .sshDirNotDir =>
    (st, { skipped := true, skipReason := ".ssh exists but is not a directory" })
  | .error .noHomeDir =>
    (st, { error := some "failed to lookup user: user has no home directory" })
  | .error (.other msg) =>
    (st, { error := some ("failed to lookup user: " ++ msg) })
  | .ok _ =>
    match fetchAll env.srcOuts with
    | (_, some e) => (st, { error := some ("failed to fetch keys: " ++ e) })
    | (frs, none) =>
      let (content, stats) :=
        buildContent frs (readContent st) pol.preserveLocalKeys
          re.ver re.commit re.date re.ts
      let r0 : UserResult :=
        { keysWritten := stats.totalKeys, localKeys := stats.localKeys }
      if dryRun then (st, r0)
      else
        let (st1, backupPath) :=
          if pol.backupEnabled then
            let existing := readContent st
            if 0 < existing.length ∧ existing ≠ content then
              let (stB, p) := createBackup st re.backupTs re.backupId
              (applyRotate stB pol.backupRetentionCount, p)
            else (st, "")
          else (st, "")
        let (st2, wr) := writeAtomic st1 content
        (st2, { r0 with changed := wr.changed, backupPath := backupPath })

/-- `sync.Run`: the identities strictly in configuration order, each through
`syncUser`; every identity produces one `UserResult` and the loop never
breaks early.  Each identity's filesystem state is its own. -/
def runUsers (users : List (UserEnv × FSState)) (pol : Policy) (dryRun : Bool)
    (re : RenderEnv) : List (FSState × UserResult) :=
  users.map (fun u => syncUser u.1 pol dryRun re u.2)

/-! ## `cmd` — exit status -/

/-- The summary loop of `run` in the CLI entry point: an identity counts as
failed exactly when its outcome carries an error. -/
def failedCount (results : List UserResult) : Nat :=
  results.countP (fun r => r.error.isSome)

/-- The exit status `run` returns after the summary: `1` when at least one
identity failed, else `0`. -/
def exitCode (results : List UserResult) : Nat :=
  if 0 < failedCount results then 1 else 0

/-! ## Helper lemmas about the string primitives -/

theorem dropWhile_append_singleton {p : Char → Bool} {c : Char}
    (hc : p c = false) (ys : List Char) :
    ∃ zs, List.dropWhile p (ys ++ [c]) = zs ++ [c] := by
  induction ys with
  | nil => exact ⟨[], by simp [List.dropWhile_cons, hc]⟩
  | cons y ys ih =>
    by_cases hy : p y
    · simpa [List.dropWhile_cons, hy] using ih
    · exact ⟨y :: ys, by simp [List.dropWhile_cons, hy]⟩

/-- Trimming keeps a non-whitespace head character. -/
theorem trimChars_head {c : Char} (hc : goIsSpace c = false) (t : List Char) :
    (trimChars (c :: t)).head? = some c := by
  unfold trimChars
  rw [List.dropWhile_cons, if_neg (by simp [hc])]
  rw [show (c :: t).reverse = t.reverse ++ [c] by simp]
  obtain ⟨zs, hz⟩ := dropWhile_append_singleton hc t.reverse
  rw [hz]
  simp

theorem mem_trimChars {l : List Char} {c : Char} (h : c ∈ trimChars l) :
    c ∈ l := by
  unfold trimChars at h
  rw [List.mem_reverse] at h
  have h1 := (List.dropWhile_sublist _).mem h
  rw [List.mem_reverse] at h1
  exact (List.dropWhile_sublist _).mem h1

theorem dropWhile_head_false {p : Char → Bool} (l : List Char) :
    (l.dropWhile p).dropWhile p = l.dropWhile p := by
  induction l with
  | nil => rfl
  | cons a t ih =>
    by_cases ha : p a
    · simpa [List.dropWhile_cons, ha] using ih
    · simp [List.dropWhile_cons, ha]

/-- `strings.TrimSpace` is idempotent. -/
theorem trimChars_idem (l : List Char) : trimChars (trimChars l) = trimChars l := by
  unfold trimChars
  cases hA : l.dropWhile goIsSpace with
  | nil => simp
  | cons a t =>
    have ha : goIsSpace a = false := by
      have := List.head?_dropWhile_not goIsSpace l
      rw [hA] at this
      simpa using this
    obtain ⟨zs, hz⟩ := dropWhile_append_singleton ha t.reverse
    rw [show (a :: t).reverse = t.reverse ++ [a] by simp, hz]
    rw [show (zs ++ [a]).reverse = a :: zs.reverse by simp]
    rw [List.dropWhile_cons, if_neg (by simp [ha])]
    rw [show (a :: zs.reverse).reverse = zs ++ [a] by simp]
    rw [show List.dropWhile goIsSpace (zs ++ [a]) = zs ++ [a] by
      conv_lhs => rw [← hz]
      rw [dropWhile_head_false, hz]]
    simp

theorem goTrim_idem (s : String) : goTrim (goTrim s) = goTrim s := by
  simp [goTrim, trimChars_idem]

/-- Every scanned token is newline-free. -/
theorem splitLinesAux_no_newline :
    ∀ (l acc : List Char), (∀ c ∈ acc, c ≠ '\n') →
      ∀ piece ∈ splitLinesAux l acc, ∀ c ∈ piece, c ≠ '\n' := by
  intro l
  induction l with
  | nil =>
    intro acc hacc piece hp
    unfold splitLinesAux at hp
    by_cases h : acc.isEmpty <;> simp [h] at hp
    subst hp
    intro c hc
    exact hacc c (by simpa using hc)
  | cons a t ih =>
    intro acc hacc piece hp
    unfold splitLinesAux at hp
    by_cases ha : a = '\n'
    · simp [ha] at hp
      rcases hp with hp | hp
      · subst hp
        intro c hc
        exact hacc c (by simpa using hc)
      · exact ih [] (by simp) piece hp
    · simp [ha] at hp
      refine ih (a :: acc) ?_ piece hp
      intro c hc
      rcases List.mem_cons.mp hc with rfl | hc
      · exact ha
      · exact hacc c hc

/-- A newline-free tail scans to a single token (or none when empty). -/
theorem splitLinesAux_of_no_newline (l : List Char) :
    ∀ acc : List Char, (∀ c ∈ l, c ≠ '\n') →
      splitLinesAux l acc =
        if (acc.reverse ++ l).isEmpty then [] else [acc.reverse ++ l] := by
  induction l with
  | nil =>
    intro acc _
    simp [splitLinesAux]
  | cons c rest ih =>
    intro acc h
    have hc : c ≠ '\n' := h c (by simp)
    simp only [splitLinesAux, if_neg hc]
    rw [ih (c :: acc) (fun d hd => h d (by simp [hd]))]
    simp [List.reverse_cons, List.append_assoc]

/-- A nonempty newline-free list is one single scanned token. -/
theorem splitLines_single {l : List Char} (h : ∀ c ∈ l, c ≠ '\n')
    (hne : l ≠ []) : splitLinesAux l [] = [l] := by
  rw [splitLinesAux_of_no_newline l [] h]
  simp [hne]

theorem splitLinesAux_append (xs rest acc : List Char)
    (hxs : ∀ c ∈ xs, c ≠ '\n') :
    splitLinesAux (xs ++ '\n' :: rest) acc =
      (acc.reverse ++ xs) :: splitLinesAux rest [] := by
  induction xs generalizing acc with
  | nil => simp [splitLinesAux]
  | cons x xs ih =>
    have hx : x ≠ '\n' := hxs x (by simp)
    simp only [List.cons_append, splitLinesAux, if_neg hx]
    rw [show xs.append ('\n' :: rest) = xs ++ '\n' :: rest from rfl]
    rw [ih (x :: acc) (fun c hc => hxs c (by simp [hc]))]
    simp

theorem replicate_ne_nil {c : Char} {n : Nat} (h : 0 < n) :
    List.replicate n c ≠ [] := by
  intro hcon
  have hlen := congrArg List.length hcon
  rw [List.length_replicate] at hlen
  simp at hlen
  omega

theorem replicate_no_newline {c : Char} (hc : c ≠ '\n') (n : Nat) :
    ∀ d ∈ List.replicate n c, d ≠ '\n' := by
  intro d hd
  rw [List.eq_of_mem_replicate hd]
  exact hc

/-- The scanner aborts exactly when some scanned line reaches the 64 KiB
cap. -/
theorem scanTooLong_iff (s : String) :
    scanTooLong s = true ↔
      ∃ raw ∈ splitLines s, maxScanTokenSize ≤ raw.length := by
  unfold scanTooLong splitLines
  rw [List.any_eq_true]
  constructor
  · rintro ⟨l, hl, hlen⟩
    exact ⟨⟨l⟩, List.mem_map_of_mem _ hl, by simpa using hlen⟩
  · rintro ⟨raw, hraw, hlen⟩
    obtain ⟨l, hl, rfl⟩ := List.mem_map.mp hraw
    exact ⟨l, hl, by simpa using hlen⟩

/-- A pure repetition of a non-newline character at or over the cap trips
the scanner. -/
theorem scanTooLong_replicate {c : Char} (hc : c ≠ '\n') {n : Nat}
    (h : maxScanTokenSize ≤ n) :
    scanTooLong ⟨List.replicate n c⟩ = true := by
  unfold scanTooLong
  rw [show (⟨List.replicate n c⟩ : String).data = List.replicate n c from rfl]
  rw [splitLines_single (replicate_no_newline hc n)
    (replicate_ne_nil (by unfold maxScanTokenSize at h; omega))]
  simp [List.length_replicate, h]

/-- `localPass` through `localParsedKeys`: a failed parse behaves exactly as
an empty local key list. -/
theorem localPass_eq (pl : Bool) (existing : String)
    (seen : List (String × String)) :
    localPass pl existing seen =
      if pl ∧ existing ≠ "" then
        dedupSourceKeys "Local" (localParsedKeys existing) seen
      else ([], seen, []) := by
  unfold localPass localParsedKeys
  by_cases hg : pl ∧ existing ≠ ""
  · rw [if_pos hg, if_pos hg]
    cases hpr : parseString existing with
    | error e => rfl
    | ok pr => rfl
  · rw [if_neg hg, if_neg hg]

/-- Lookup distributes over appended bindings: earlier bindings win. -/
theorem seenFind_append (a b : List (String × String)) (L : String) :
    seenFind (a ++ b) L =
      match seenFind a L with
      | some v => some v
      | none => seenFind b L := by
  induction a with
  | nil => rfl
  | cons p rest ih =>
    by_cases hp : p.1 = L
    · simp [seenFind, hp]
    · simpa [seenFind, hp] using ih

/-! ## The parser, line by line (claim C5) -/

/-- `isValidKey` unfolded into the specification's per-line rule. -/
theorem isValidKey_iff (t : String) :
    isValidKey t = true ↔
      (t ≠ "" ∧ startsWithChar t '#' = false ∧ startsWithChar t '<' = false ∧
       startsWithChar t '{' = false ∧ startsWithChar t '[' = false ∧
       2 ≤ goFieldsCount t) := by
  unfold isValidKey
  split_ifs with h1 h2 h3
  · have ht : t = "" := by simpa using h1
    subst ht
    simp
  · exact iff_of_false (by simp) fun hx => absurd h2 (by simp [hx.2.1])
  · refine iff_of_false (by simp) fun hx => ?_
    simp only [Bool.or_eq_true] at h3
    rcases h3 with (h | h) | h
    · exact absurd h (by simp [hx.2.2.1])
    · exact absurd h (by simp [hx.2.2.2.1])
    · exact absurd h (by simp [hx.2.2.2.2.1])
  · have h1' : t ≠ "" := by simpa using h1
    have h2' : startsWithChar t '#' = false := by simpa using h2
    simp only [Bool.or_eq_true, not_or, Bool.not_eq_true] at h3
    obtain ⟨⟨h3a, h3b⟩, h3c⟩ := h3
    simp [h1', h2', h3a, h3b, h3c]

theorem isValidKey_empty : isValidKey "" = false := by decide

/-- The scan loop, closed form: over the 1-indexed enumeration of the
tokens, a token is kept iff its trim passes the validity rule, carrying its
trim and line number; a token is counted as discarded iff its trim is
non-empty and fails the rule. -/
theorem parseLoop_eq (ls : List String) (n : Nat) :
    parseLoop ls n =
      { keys := (List.enumFrom n ls).filterMap (fun p =>
          if isValidKey (goTrim p.2) then some ⟨goTrim p.2, p.1⟩ else none),
        discardedLines := ls.countP (fun raw =>
          decide (goTrim raw ≠ "") && !isValidKey (goTrim raw)) } := by
  induction ls generalizing n with
  | nil => rfl
  | cons raw rest ih =>
    by_cases hv : isValidKey (goTrim raw)
    · simp [parseLoop, hv, List.enumFrom_cons, ih, List.countP_cons]
    · by_cases he : goTrim raw = ""
      · simp [parseLoop, hv, he, List.enumFrom_cons, ih, List.countP_cons,
          isValidKey_empty]
      · simp [parseLoop, hv, he, List.enumFrom_cons, ih, List.countP_cons]

theorem discard_pred_eq (t : String) :
    (decide ¬t = "" && !isValidKey t) =
    (decide ¬t = "" &&
      (startsWithChar t '#' || startsWithChar t '<' || startsWithChar t '{' ||
       startsWithChar t '[' || decide (goFieldsCount t < 2))) := by
  by_cases he : t = ""
  · simp [he]
  · rw [Bool.eq_iff_iff]
    simp only [Bool.and_eq_true, Bool.or_eq_true, Bool.not_eq_true',
      Bool.not_eq_true, decide_eq_true_eq, Bool.decide_and, Bool.decide_eq_true]
    constructor
    · rintro ⟨-, hnv⟩
      refine ⟨he, ?_⟩
      by_contra hall
      push_neg at hall
      obtain ⟨⟨⟨⟨h1, h2⟩, h3⟩, h4⟩, h5⟩ := hall
      rw [(isValidKey_iff t).mpr
        ⟨he, by simpa using h1, by simpa using h2, by simpa using h3,
         by simpa using h4, by omega⟩] at hnv
      simp at hnv
    · rintro ⟨-, hone⟩
      refine ⟨he, ?_⟩
      cases hv : isValidKey t
      · rfl
      · exfalso
        obtain ⟨-, k1, k2, k3, k4, k5⟩ := (isValidKey_iff t).mp hv
        rcases hone with (((h | h) | h) | h) | h
        · rw [k1] at h; cases h
        · rw [k2] at h; cases h
        · rw [k3] at h; cases h
        · rw [k4] at h; cases h
        · omega

/-- C5 (amended).  When every scanned line is under `bufio.Scanner`'s
64 KiB token cap, the parser processes each line independently after
trimming: an empty trim is discarded and not counted; a trim starting with
`#`, `<`, `{` or `[` is discarded and counted; any other trim is kept iff it
has at least two whitespace-separated fields, and otherwise discarded and
counted; kept lines appear in input order carrying their 1-indexed original
line numbers.  But parsing is not total and does not fail only on a genuine
read error: as soon as one line reaches the 64 KiB cap, `Parse` fails with
`bufio.ErrTooLong` — even from a string, where no read error can occur — and
the whole result is discarded. -/
theorem claim5_parser_line_rules (s : String) :
    ((∀ raw ∈ splitLines s, raw.length < maxScanTokenSize) →
      parseString s = .ok
        { keys := (List.enumFrom 1 (splitLines s)).filterMap (fun p =>
            if goTrim p.2 ≠ "" ∧ startsWithChar (goTrim p.2) '#' = false ∧
                startsWithChar (goTrim p.2) '<' = false ∧
                startsWithChar (goTrim p.2) '{' = false ∧
                startsWithChar (goTrim p.2) '[' = false ∧
                2 ≤ goFieldsCount (goTrim p.2)
            then some ⟨goTrim p.2, p.1⟩ else none),
          discardedLines := (splitLines s).countP (fun raw =>
            decide ¬goTrim raw = "" &&
            (startsWithChar (goTrim raw) '#' ||
             startsWithChar (goTrim raw) '<' ||
             startsWithChar (goTrim raw) '{' ||
             startsWithChar (goTrim raw) '[' ||
             decide (goFieldsCount (goTrim raw) < 2))) }) ∧
    ((∃ raw ∈ splitLines s, maxScanTokenSize ≤ raw.length) →
      parseString s = .error "bufio.Scanner: token too long") := by
  constructor
  · intro hall
    have hne : ¬scanTooLong s = true := by
      intro hcon
      obtain ⟨raw, hraw, hlen⟩ := (scanTooLong_iff s).mp hcon
      have := hall raw hraw
      omega
    rw [parseString, if_neg hne, parseLoop_eq]
    refine congrArg Except.ok ?_
    congr 1
    · refine List.filterMap_congr ?_
      intro p _
      exact if_congr (isValidKey_iff (goTrim p.2)) rfl rfl
    · simp only [discard_pred_eq]
  · intro hex
    rw [parseString, if_pos ((scanTooLong_iff s).mpr hex)]

theorem claim5_witness :
    (∀ raw ∈ splitLines "# c\nssh-rsa BBB x@y\n",
      raw.length < maxScanTokenSize) ∧
    parseString "# c\nssh-rsa BBB x@y\n" =
      .ok { keys := [⟨"ssh-rsa BBB x@y", 2⟩], discardedLines := 1 } := by
  refine ⟨by decide, ?_⟩
  rw [(claim5_parser_line_rules "# c\nssh-rsa BBB x@y\n").1 (by decide)]
  decide

/-- A single 64 KiB line (claim C5 counterexample input). -/
def longLine : String := ⟨List.replicate maxScanTokenSize 'x'⟩

/-- The claim as frozen is false on the code: parsing this string — where no
genuine read error can occur — fails with `bufio.ErrTooLong`, because its
single line reaches the scanner's default 64 KiB token cap
(`keyparser.Parse` builds its `bufio.Scanner` without a `Buffer` call). -/
theorem claim5_counterexample :
    parseString longLine = .error "bufio.Scanner: token too long" := by
  have hscan : scanTooLong longLine = true :=
    scanTooLong_replicate (c := 'x') (by decide) (le_refl maxScanTokenSize)
  rw [parseString, if_pos hscan]

/-- Every key a successful parse emits is trimmed, valid and newline-free. -/
theorem parse_keys_valid (s : String) (pr : ParseResult)
    (hok : parseString s = .ok pr) :
    ∀ k ∈ pr.keys,
      goTrim k.line = k.line ∧ isValidKey k.line = true ∧
        ∀ c ∈ k.line.data, c ≠ '\n' := by
  have hpr : pr = parseLoop (splitLines s) 1 := by
    rw [parseString] at hok
    by_cases h : scanTooLong s = true
    · rw [if_pos h] at hok
      cases hok
    · rw [if_neg h] at hok
      injection hok with h2
      exact h2.symm
  subst hpr
  intro k hk
  rw [parseLoop_eq] at hk
  simp only [List.mem_filterMap] at hk
  obtain ⟨p, hp, hite⟩ := hk
  by_cases hv : isValidKey (goTrim p.2)
  · rw [if_pos hv] at hite
    obtain rfl : (⟨goTrim p.2, p.1⟩ : ParsedKey) = k := by simpa using hite
    refine ⟨goTrim_idem p.2, hv, ?_⟩
    intro c hc hcn
    subst hcn
    have hraw : p.2 ∈ splitLines s := by
      have := List.enumFrom_map_snd 1 (splitLines s)
      have : p.2 ∈ (List.enumFrom 1 (splitLines s)).map Prod.snd :=
        List.mem_map_of_mem Prod.snd hp
      rwa [List.enumFrom_map_snd] at this
    simp only [splitLines, List.mem_map] at hraw
    obtain ⟨piece, hpiece, hmk⟩ := hraw
    have hc' : '\n' ∈ piece := by
      have := mem_trimChars (l := p.2.data) (c := '\n') (by simpa [goTrim] using hc)
      rwa [← hmk] at this
    exact splitLinesAux_no_newline s.data [] (by simp) piece hpiece '\n' hc' rfl
  · rw [if_neg hv] at hite
    cases hite

/-- Every local key surviving the `err == nil` guard is trimmed, valid and
newline-free. -/
theorem localParsedKeys_valid (s : String) :
    ∀ k ∈ localParsedKeys s,
      goTrim k.line = k.line ∧ isValidKey k.line = true ∧
        ∀ c ∈ k.line.data, c ≠ '\n' := by
  unfold localParsedKeys
  cases h : parseString s with
  | error e => simp
  | ok pr => exact parse_keys_valid s pr h

/-- A failed parse lets no local key through the guard. -/
theorem localParsedKeys_error {s e : String}
    (h : parseString s = .error e) : localParsedKeys s = [] := by
  unfold localParsedKeys
  rw [h]

/-! ## Deduplication lemmas (claim C2) -/

theorem seenFind_append_none (a b : List (String × String)) (L : String) :
    seenFind (a ++ b) L = none ↔ seenFind a L = none ∧ seenFind b L = none := by
  rw [seenFind_append]
  cases h : seenFind a L <;> simp

theorem seenFind_append_some {a : List (String × String)} {L v : String}
    (b : List (String × String)) (h : seenFind a L = some v) :
    seenFind (a ++ b) L = some v := by
  rw [seenFind_append, h]

theorem seenFind_pairs_some {ks : List String} {L : String} (url : String)
    (h : L ∈ ks) : seenFind (ks.map (fun l => (l, url))) L = some url := by
  induction ks with
  | nil => cases h
  | cons a t ih =>
    rcases List.mem_cons.mp h with rfl | h'
    · simp [seenFind]
    · by_cases ha : a = L
      · simp [seenFind, ha]
      · simpa [seenFind, ha] using ih h'

theorem seenFind_pairs_none {ks : List String} {L : String} (url : String) :
    seenFind (ks.map (fun l => (l, url))) L = none ↔ L ∉ ks := by
  induction ks with
  | nil => simp [seenFind]
  | cons a t ih =>
    by_cases ha : a = L
    · subst ha
      simp [seenFind]
    · simp [seenFind, ha, ih, Ne.symm ha]

/-- The `seenKeys` map grows by exactly the kept lines, bound to this
origin. -/
theorem dedup_seen (url : String) (keys : List ParsedKey)
    (seen : List (String × String)) :
    (dedupSourceKeys url keys seen).2.1 =
      seen ++ (dedupSourceKeys url keys seen).1.map (fun l => (l, url)) := by
  induction keys generalizing seen with
  | nil => simp [dedupSourceKeys]
  | cons k rest ih =>
    cases hf : seenFind seen k.line with
    | some first =>
      rcases hrec : dedupSourceKeys url rest seen with ⟨kept, seen', dups⟩
      have := ih seen
      rw [hrec] at this
      simp only [dedupSourceKeys, hf, hrec]
      simpa using this
    | none =>
      rcases hrec : dedupSourceKeys url rest (seen ++ [(k.line, url)]) with
        ⟨kept, seen', dups⟩
      have := ih (seen ++ [(k.line, url)])
      rw [hrec] at this
      simp only [dedupSourceKeys, hf, hrec]
      simpa using this

/-- A line is kept iff it was not yet seen and occurs in this source. -/
theorem dedup_mem (url : String) (keys : List ParsedKey)
    (seen : List (String × String)) (L : String) :
    L ∈ (dedupSourceKeys url keys seen).1 ↔
      seenFind seen L = none ∧ L ∈ keys.map (·.line) := by
  induction keys generalizing seen with
  | nil => simp [dedupSourceKeys]
  | cons k rest ih =>
    cases hf : seenFind seen k.line with
    | some first =>
      rcases hrec : dedupSourceKeys url rest seen with ⟨kept, seen', dups⟩
      have := ih seen
      rw [hrec] at this
      simp only [dedupSourceKeys, hf, hrec]
      simp only [List.map_cons, List.mem_cons]
      rw [this]
      constructor
      · rintro ⟨h1, h2⟩
        exact ⟨h1, Or.inr h2⟩
      · rintro ⟨h1, rfl | h2⟩
        · rw [hf] at h1; cases h1
        · exact ⟨h1, h2⟩
    | none =>
      rcases hrec : dedupSourceKeys url rest (seen ++ [(k.line, url)]) with
        ⟨kept, seen', dups⟩
      have := ih (seen ++ [(k.line, url)])
      rw [hrec] at this
      simp only [dedupSourceKeys, hf, hrec]
      simp only [List.map_cons, List.mem_cons]
      rw [this, seenFind_append_none]
      by_cases hL : L = k.line
      · subst hL
        simp [hf, seenFind]
      · have hkl : ¬k.line = L := fun h => hL h.symm
        have : seenFind [(k.line, url)] L = none := by
          simp [seenFind, hkl]
        constructor
        · rintro (rfl | ⟨⟨h1, -⟩, h2⟩)
          · exact absurd rfl hL
          · exact ⟨h1, Or.inr h2⟩
        · rintro ⟨h1, rfl | h2⟩
          · exact absurd rfl hL
          · exact Or.inr ⟨⟨h1, this⟩, h2⟩

/-- No line is kept twice within one `dedupSourceKeys` pass. -/
theorem dedup_nodup (url : String) (keys : List ParsedKey)
    (seen : List (String × String)) :
    (dedupSourceKeys url keys seen).1.Nodup := by
  induction keys generalizing seen with
  | nil => simp [dedupSourceKeys]
  | cons k rest ih =>
    cases hf : seenFind seen k.line with
    | some first =>
      rcases hrec : dedupSourceKeys url rest seen with ⟨kept, seen', dups⟩
      have := ih seen
      rw [hrec] at this
      simp only [dedupSourceKeys, hf, hrec]
      exact this
    | none =>
      rcases hrec : dedupSourceKeys url rest (seen ++ [(k.line, url)]) with
        ⟨kept, seen', dups⟩
      have hnd := ih (seen ++ [(k.line, url)])
      rw [hrec] at hnd
      have hmem := dedup_mem url rest (seen ++ [(k.line, url)]) k.line
      rw [hrec] at hmem
      simp only [dedupSourceKeys, hf, hrec]
      refine List.nodup_cons.mpr ⟨fun hk => ?_, hnd⟩
      have := (hmem.mp hk).1
      rw [seenFind_append_none] at this
      have : seenFind [(k.line, url)] k.line = none := this.2
      simp [seenFind] at this

/-- Conservation: every occurrence of a line in the source is either kept or
recorded as a duplicate. -/
theorem dedup_count (url : String) (keys : List ParsedKey)
    (seen : List (String × String)) (L : String) :
    (keys.map (·.line)).count L =
      (dedupSourceKeys url keys seen).1.count L +
      (dedupSourceKeys url keys seen).2.2.countP (fun d => d.key == L) := by
  induction keys generalizing seen with
  | nil => simp [dedupSourceKeys]
  | cons k rest ih =>
    cases hf : seenFind seen k.line with
    | some first =>
      rcases hrec : dedupSourceKeys url rest seen with ⟨kept, seen', dups⟩
      have := ih seen
      rw [hrec] at this
      simp only [dedupSourceKeys, hf, hrec] at this ⊢
      simp only [List.map_cons, List.count_cons, List.countP_cons, this]
      by_cases hL : k.line = L
      · simp only [hL, if_pos rfl, beq_self_eq_true, if_true]
        omega
      · simp [hL]
    | none =>
      rcases hrec : dedupSourceKeys url rest (seen ++ [(k.line, url)]) with
        ⟨kept, seen', dups⟩
      have := ih (seen ++ [(k.line, url)])
      rw [hrec] at this
      simp only [dedupSourceKeys, hf, hrec] at this ⊢
      simp only [List.map_cons, List.count_cons, List.countP_cons, this]
      by_cases hL : k.line = L
      · simp only [hL, if_pos rfl, beq_self_eq_true, if_true]
        omega
      · simp [hL]

/-- Every duplicate event names this origin as the duplicate side, a line of
this source as key, and the key's first origin as recorded in the final
map. -/
theorem dedup_dups (url : String) (keys : List ParsedKey)
    (seen : List (String × String)) :
    ∀ d ∈ (dedupSourceKeys url keys seen).2.2,
      seenFind (dedupSourceKeys url keys seen).2.1 d.key = some d.firstSource ∧
      d.duplicateSource = url ∧ d.key ∈ keys.map (·.line) := by
  induction keys generalizing seen with
  | nil => simp [dedupSourceKeys]
  | cons k rest ih =>
    cases hf : seenFind seen k.line with
    | some first =>
      rcases hrec : dedupSourceKeys url rest seen with ⟨kept, seen', dups⟩
      have hseen := dedup_seen url rest seen
      rw [hrec] at hseen
      have ihh := ih seen
      rw [hrec] at ihh
      simp only [dedupSourceKeys, hf, hrec]
      intro d hd
      rcases List.mem_cons.mp hd with rfl | hd'
      · refine ⟨?_, rfl, by simp⟩
        have hseen' : seen' = seen ++ kept.map (fun l => (l, url)) := by
          simpa using hseen
        rw [hseen']
        exact seenFind_append_some _ hf
      · obtain ⟨h1, h2, h3⟩ := ihh d hd'
        exact ⟨h1, h2, by simp [h3]⟩
    | none =>
      rcases hrec : dedupSourceKeys url rest (seen ++ [(k.line, url)]) with
        ⟨kept, seen', dups⟩
      have ihh := ih (seen ++ [(k.line, url)])
      rw [hrec] at ihh
      simp only [dedupSourceKeys, hf, hrec]
      intro d hd
      obtain ⟨h1, h2, h3⟩ := ihh d hd
      exact ⟨h1, h2, by simp [h3]⟩

/-- The final map looks up exactly like the occurrence list of this pass
appended to the prior map: first binding wins. -/
theorem dedup_seenFind (url : String) (keys : List ParsedKey)
    (seen : List (String × String)) (L : String) :
    seenFind (dedupSourceKeys url keys seen).2.1 L =
      seenFind (seen ++ keys.map (fun k => (k.line, url))) L := by
  induction keys generalizing seen with
  | nil => simp [dedupSourceKeys]
  | cons k rest ih =>
    cases hf : seenFind seen k.line with
    | some first =>
      rcases hrec : dedupSourceKeys url rest seen with ⟨kept, seen', dups⟩
      have := ih seen
      rw [hrec] at this
      simp only [dedupSourceKeys, hf, hrec]
      simp only [this, seenFind_append]
      by_cases hL : L = k.line
      · subst hL
        simp [hf, seenFind]
      · cases hs : seenFind seen L
        · have hkl : ¬k.line = L := fun h => hL h.symm
          simp [seenFind, hkl]
        · rfl
    | none =>
      rcases hrec : dedupSourceKeys url rest (seen ++ [(k.line, url)]) with
        ⟨kept, seen', dups⟩
      have := ih (seen ++ [(k.line, url)])
      rw [hrec] at this
      simp only [dedupSourceKeys, hf, hrec]
      rw [this]
      simp [List.append_assoc]

/-- All key lines offered by the fetch results, in processing order. -/
def allLines (frs : List FetchResult) : List String :=
  (frs.map (fun fr => fr.keys.map (·.line))).flatten

/-- The remote occurrence list: each key line paired with its source's URL,
in processing order. -/
def remoteOccs (frs : List FetchResult) : List (String × String) :=
  (frs.map (fun fr => fr.keys.map (fun k => (k.line, fr.source.url)))).flatten

/-- All kept lines of the rendered sections, in rendering order. -/
def keptLines (sks : List SourceKeys) : List String :=
  (sks.map (·.keys)).flatten

theorem process_seen (frs : List FetchResult) (seen : List (String × String)) :
    (processSources frs seen).2.1 =
      seen ++ ((processSources frs seen).1.map
        (fun sk => sk.keys.map (fun l => (l, sk.url)))).flatten := by
  induction frs generalizing seen with
  | nil => simp [processSources]
  | cons fr rest ih =>
    rcases hd : dedupSourceKeys fr.source.url fr.keys seen with ⟨kept, seen1, dups1⟩
    rcases hp : processSources rest seen1 with ⟨sks, seen2, dups2⟩
    have hseen1 : seen1 = seen ++ kept.map (fun l => (l, fr.source.url)) := by
      have := dedup_seen fr.source.url fr.keys seen
      rw [hd] at this
      simpa using this
    have ihh : seen2 = seen1 ++
        (sks.map (fun sk => sk.keys.map (fun l => (l, sk.url)))).flatten := by
      have := ih seen1
      rw [hp] at this
      simpa using this
    simp only [processSources, hd, hp]
    by_cases hk : kept.isEmpty
    · have hke : kept = [] := by simpa [List.isEmpty_iff] using hk
      subst hke
      rw [if_pos hk]
      rw [ihh, hseen1]
      simp
    · rw [if_neg hk]
      simp only [List.map_cons, List.flatten_cons]
      rw [ihh, hseen1, List.append_assoc]

theorem process_mem (frs : List FetchResult) (seen : List (String × String))
    (L : String) :
    L ∈ keptLines (processSources frs seen).1 ↔
      seenFind seen L = none ∧ L ∈ allLines frs := by
  induction frs generalizing seen with
  | nil => simp [processSources, keptLines, allLines]
  | cons fr rest ih =>
    rcases hd : dedupSourceKeys fr.source.url fr.keys seen with ⟨kept, seen1, dups1⟩
    rcases hp : processSources rest seen1 with ⟨sks, seen2, dups2⟩
    have hseen1 : seen1 = seen ++ kept.map (fun l => (l, fr.source.url)) := by
      have := dedup_seen fr.source.url fr.keys seen
      rw [hd] at this
      simpa using this
    have hmem : ∀ M, M ∈ kept ↔
        seenFind seen M = none ∧ M ∈ fr.keys.map (·.line) := by
      intro M
      have := dedup_mem fr.source.url fr.keys seen M
      rw [hd] at this
      simpa using this
    have ihh : L ∈ keptLines sks ↔ seenFind seen1 L = none ∧ L ∈ allLines rest := by
      have := ih seen1
      rw [hp] at this
      simpa using this
    have hseen1find : seenFind seen1 L = none ↔
        seenFind seen L = none ∧ L ∉ kept := by
      rw [hseen1, seenFind_append_none, seenFind_pairs_none]
    have hall : allLines (fr :: rest) = fr.keys.map (·.line) ++ allLines rest := by
      simp [allLines]
    have hsplit : keptLines
        (if kept.isEmpty then sks else SourceKeys.mk fr.source.url kept :: sks) =
        kept ++ keptLines sks := by
      by_cases hk : kept.isEmpty
      · have hke : kept = [] := by simpa [List.isEmpty_iff] using hk
        subst hke
        rw [if_pos hk]
        simp
      · rw [if_neg hk]
        simp [keptLines]
    simp only [processSources, hd, hp]
    simp only [hsplit, List.mem_append, hall]
    rw [ihh, hseen1find]
    constructor
    · rintro (h | ⟨⟨h1, -⟩, h2⟩)
      · obtain ⟨h1, h2⟩ := (hmem L).mp h
        exact ⟨h1, Or.inl h2⟩
      · exact ⟨h1, Or.inr h2⟩
    · rintro ⟨h1, hin⟩
      rcases hin with h2 | h2
      · exact Or.inl ((hmem L).mpr ⟨h1, h2⟩)
      · by_cases hkk : L ∈ kept
        · exact Or.inl hkk
        · exact Or.inr ⟨⟨h1, hkk⟩, h2⟩

theorem process_nodup (frs : List FetchResult) (seen : List (String × String)) :
    (keptLines (processSources frs seen).1).Nodup := by
  induction frs generalizing seen with
  | nil => simp [processSources, keptLines]
  | cons fr rest ih =>
    rcases hd : dedupSourceKeys fr.source.url fr.keys seen with ⟨kept, seen1, dups1⟩
    rcases hp : processSources rest seen1 with ⟨sks, seen2, dups2⟩
    have hseen1 : seen1 = seen ++ kept.map (fun l => (l, fr.source.url)) := by
      have := dedup_seen fr.source.url fr.keys seen
      rw [hd] at this
      simpa using this
    have hnd : kept.Nodup := by
      have := dedup_nodup fr.source.url fr.keys seen
      rw [hd] at this
      simpa using this
    have ihh : (keptLines sks).Nodup := by
      have := ih seen1
      rw [hp] at this
      simpa using this
    simp only [processSources, hd, hp]
    by_cases hk : kept.isEmpty
    · have hke : kept = [] := by simpa [List.isEmpty_iff] using hk
      subst hke
      rw [if_pos hk]
      simpa using ihh
    · rw [if_neg hk]
      rw [show keptLines (SourceKeys.mk fr.source.url kept :: sks) =
          kept ++ keptLines sks by simp [keptLines]]
      refine List.nodup_append.mpr ⟨hnd, ihh, ?_⟩
      intro a ha hb
      have hmem : a ∈ keptLines sks ↔
          seenFind seen1 a = none ∧ a ∈ allLines rest := by
        have := process_mem rest seen1 a
        rw [hp] at this
        simpa using this
      have h1 := (hmem.mp hb).1
      rw [hseen1, seenFind_append_none, seenFind_pairs_none] at h1
      exact h1.2 ha

theorem process_count (frs : List FetchResult) (seen : List (String × String))
    (L : String) :
    (allLines frs).count L =
      (keptLines (processSources frs seen).1).count L +
      (processSources frs seen).2.2.countP (fun d => d.key == L) := by
  induction frs generalizing seen with
  | nil => simp [processSources, keptLines, allLines]
  | cons fr rest ih =>
    rcases hd : dedupSourceKeys fr.source.url fr.keys seen with ⟨kept, seen1, dups1⟩
    rcases hp : processSources rest seen1 with ⟨sks, seen2, dups2⟩
    have hcnt : (fr.keys.map (·.line)).count L =
        kept.count L + dups1.countP (fun d => d.key == L) := by
      have := dedup_count fr.source.url fr.keys seen L
      rw [hd] at this
      simpa using this
    have ihh : (allLines rest).count L =
        (keptLines sks).count L + dups2.countP (fun d => d.key == L) := by
      have := ih seen1
      rw [hp] at this
      simpa using this
    have hall : allLines (fr :: rest) = fr.keys.map (·.line) ++ allLines rest := by
      simp [allLines]
    simp only [processSources, hd, hp]
    rw [hall, List.count_append]
    by_cases hk : kept.isEmpty
    · have hke : kept = [] := by simpa [List.isEmpty_iff] using hk
      subst hke
      rw [if_pos hk]
      simp only [List.count_nil] at hcnt
      simp only [List.countP_append]
      omega
    · rw [if_neg hk]
      rw [show keptLines (SourceKeys.mk fr.source.url kept :: sks) =
          kept ++ keptLines sks by simp [keptLines]]
      simp only [List.count_append, List.countP_append]
      omega

theorem process_dups (frs : List FetchResult) (seen : List (String × String)) :
    ∀ d ∈ (processSources frs seen).2.2,
      seenFind (processSources frs seen).2.1 d.key = some d.firstSource ∧
      d.key ∈ allLines frs := by
  induction frs generalizing seen with
  | nil => simp [processSources]
  | cons fr rest ih =>
    rcases hd : dedupSourceKeys fr.source.url fr.keys seen with ⟨kept, seen1, dups1⟩
    rcases hp : processSources rest seen1 with ⟨sks, seen2, dups2⟩
    have hseen2 : seen2 = seen1 ++
        (sks.map (fun sk => sk.keys.map (fun l => (l, sk.url)))).flatten := by
      have := process_seen rest seen1
      rw [hp] at this
      simpa using this
    have hdups1 : ∀ d ∈ dups1, seenFind seen1 d.key = some d.firstSource ∧
        d.duplicateSource = fr.source.url ∧ d.key ∈ fr.keys.map (·.line) := by
      have := dedup_dups fr.source.url fr.keys seen
      rw [hd] at this
      simpa using this
    have ihh : ∀ d ∈ dups2, seenFind seen2 d.key = some d.firstSource ∧
        d.key ∈ allLines rest := by
      have := ih seen1
      rw [hp] at this
      simpa using this
    have hall : allLines (fr :: rest) = fr.keys.map (·.line) ++ allLines rest := by
      simp [allLines]
    simp only [processSources, hd, hp]
    intro d hd'
    rcases List.mem_append.mp hd' with h | h
    · obtain ⟨h1, -, h3⟩ := hdups1 d h
      refine ⟨?_, by rw [hall]; exact List.mem_append.mpr (Or.inl h3)⟩
      rw [hseen2]
      exact seenFind_append_some _ h1
    · obtain ⟨h1, h2⟩ := ihh d h
      exact ⟨h1, by rw [hall]; exact List.mem_append.mpr (Or.inr h2)⟩

theorem process_sections (frs : List FetchResult) (seen : List (String × String)) :
    ∀ sk ∈ (processSources frs seen).1, ∀ l ∈ sk.keys,
      seenFind (processSources frs seen).2.1 l = some sk.url := by
  induction frs generalizing seen with
  | nil => simp [processSources]
  | cons fr rest ih =>
    rcases hd : dedupSourceKeys fr.source.url fr.keys seen with ⟨kept, seen1, dups1⟩
    rcases hp : processSources rest seen1 with ⟨sks, seen2, dups2⟩
    have hseen1 : seen1 = seen ++ kept.map (fun l => (l, fr.source.url)) := by
      have := dedup_seen fr.source.url fr.keys seen
      rw [hd] at this
      simpa using this
    have hmem : ∀ M, M ∈ kept → seenFind seen M = none := by
      intro M hM
      have h := dedup_mem fr.source.url fr.keys seen M
      rw [hd] at h
      have h2 : M ∈ kept ↔
          seenFind seen M = none ∧ M ∈ fr.keys.map (·.line) := by
        simpa using h
      exact (h2.mp hM).1
    have hseen2 : seen2 = seen1 ++
        (sks.map (fun sk => sk.keys.map (fun l => (l, sk.url)))).flatten := by
      have := process_seen rest seen1
      rw [hp] at this
      simpa using this
    have ihh : ∀ sk ∈ sks, ∀ l ∈ sk.keys, seenFind seen2 l = some sk.url := by
      have := ih seen1
      rw [hp] at this
      simpa using this
    have hhead : ∀ m ∈ kept, seenFind seen2 m = some fr.source.url := by
      intro m hm
      have h1 : seenFind seen1 m = some fr.source.url := by
        rw [hseen1, seenFind_append, hmem m hm]
        exact seenFind_pairs_some _ hm
      rw [hseen2]
      exact seenFind_append_some _ h1
    simp only [processSources, hd, hp]
    intro sk hsk l hl
    by_cases hk : kept.isEmpty
    · rw [if_pos hk] at hsk
      exact ihh sk hsk l hl
    · rw [if_neg hk] at hsk
      rcases List.mem_cons.mp hsk with rfl | hsk'
      · exact hhead l hl
      · exact ihh sk hsk' l hl

theorem process_seenFind (frs : List FetchResult) (seen : List (String × String))
    (L : String) :
    seenFind (processSources frs seen).2.1 L =
      seenFind (seen ++ remoteOccs frs) L := by
  induction frs generalizing seen with
  | nil => simp [processSources, remoteOccs]
  | cons fr rest ih =>
    rcases hd : dedupSourceKeys fr.source.url fr.keys seen with ⟨kept, seen1, dups1⟩
    rcases hp : processSources rest seen1 with ⟨sks, seen2, dups2⟩
    have hfind1 : seenFind seen1 L =
        seenFind (seen ++ fr.keys.map (fun k => (k.line, fr.source.url))) L := by
      have := dedup_seenFind fr.source.url fr.keys seen L
      rw [hd] at this
      simpa using this
    have ihh : seenFind seen2 L = seenFind (seen1 ++ remoteOccs rest) L := by
      have := ih seen1
      rw [hp] at this
      simpa using this
    have hocc : remoteOccs (fr :: rest) =
        fr.keys.map (fun k => (k.line, fr.source.url)) ++ remoteOccs rest := by
      simp [remoteOccs]
    simp only [processSources, hd, hp]
    rw [ihh, seenFind_append, hfind1, ← seenFind_append, List.append_assoc, ← hocc]

/-- The full occurrence list one identity's build processes, in processing
order: every remote key line with its source URL, then — when local
preservation applies and the local parse passes the `err == nil` guard —
every parsed local line labelled `"Local"`.  Looking a line up in this list
(`seenFind`) yields the origin of its earliest occurrence in processing
order. -/
def occurrencesOf (frs : List FetchResult) (existing : String)
    (preserveLocal : Bool) : List (String × String) :=
  remoteOccs frs ++
  (if preserveLocal ∧ existing ≠ "" then
    (localParsedKeys existing).map (fun k => (k.line, "Local")) else [])

theorem final_seenFind (frs : List FetchResult) (existing : String) (pl : Bool)
    (L : String) :
    seenFind (localPass pl existing (processSources frs []).2.1).2.1 L =
      seenFind (occurrencesOf frs existing pl) L := by
  rw [localPass_eq]
  unfold occurrencesOf
  by_cases hgate : pl ∧ existing ≠ ""
  · rw [if_pos hgate, if_pos hgate]
    rw [dedup_seenFind]
    rw [seenFind_append, seenFind_append, process_seenFind]
    simp
  · rw [if_neg hgate, if_neg hgate]
    have := process_seenFind frs [] L
    simpa using this

theorem startsWithChar_append_left (s t : String) (c : Char)
    (h : s.data ≠ []) : startsWithChar (s ++ t) c = startsWithChar s c := by
  unfold startsWithChar
  rw [String.data_append]
  cases hs : s.data with
  | nil => exact absurd hs h
  | cons a l => simp

/-- A parser-valid line differs from every line starting with `#`. -/
theorem valid_ne_hash {L M : String} (hLvalid : isValidKey L = true)
    (hM : startsWithChar M '#' = true) : M ≠ L := by
  intro h
  subst h
  obtain ⟨-, h2, -⟩ := (isValidKey_iff M).mp hLvalid
  rw [hM] at h2
  cases h2

/-- A parser-valid line is nonempty. -/
theorem valid_ne_empty {L : String} (hLvalid : isValidKey L = true) :
    ¬("" : String) = L := by
  intro h
  obtain ⟨h1, -⟩ := (isValidKey_iff L).mp hLvalid
  exact h1 h.symm

theorem count_headerLines {L : String} (ver commit date ts : String)
    (hLvalid : isValidKey L = true) :
    (headerLines ver commit date ts).count L = 0 := by
  rw [List.count_eq_zero]
  intro hmem
  simp only [headerLines, List.mem_cons, List.not_mem_nil, or_false] at hmem
  have hhr : startsWithChar hrLine '#' = true := by decide
  rcases hmem with h | h | h | h | h | h | h | h
  · exact valid_ne_hash hLvalid hhr h.symm
  · exact valid_ne_hash hLvalid (by decide) h.symm
  · exact valid_ne_hash hLvalid
      (by rw [startsWithChar_append_left _ _ _ (by decide)]; decide) h.symm
  · exact valid_ne_hash hLvalid
      (by rw [startsWithChar_append_left _ _ _ (by decide)]; decide) h.symm
  · exact valid_ne_hash hLvalid
      (by rw [startsWithChar_append_left _ _ _ (by decide)]; decide) h.symm
  · exact valid_ne_hash hLvalid
      (by rw [startsWithChar_append_left _ _ _ (by decide)]; decide) h.symm
  · exact valid_ne_hash hLvalid (by decide) h.symm
  · exact valid_ne_hash hLvalid hhr h.symm

theorem count_sections {L : String} (sks : List SourceKeys)
    (hLvalid : isValidKey L = true) :
    ((sks.map (fun sk => ["", "# Source: " ++ sk.url] ++ sk.keys)).flatten).count L
      = (keptLines sks).count L := by
  induction sks with
  | nil => simp [keptLines]
  | cons sk rest ih =>
    have h1 : (("" : String) == L) = false := by
      simp [valid_ne_empty hLvalid]
    have h2 : (("# Source: " ++ sk.url) == L) = false := by
      simp only [beq_eq_false_iff_ne, ne_eq]
      exact valid_ne_hash hLvalid
        (by rw [startsWithChar_append_left _ _ _ (by decide)]; decide)
    rw [List.map_cons, List.flatten_cons, List.count_append]
    rw [show (["", "# Source: " ++ sk.url] ++ sk.keys).count L = sk.keys.count L by
      simp [List.count_append, List.count_cons, h1, h2]]
    rw [ih]
    rw [show keptLines (sk :: rest) = sk.keys ++ keptLines rest by simp [keptLines]]
    rw [List.count_append]

theorem count_buildLines {L : String} (sks : List SourceKeys)
    (localKeys : List String) (ver commit date ts : String)
    (hLvalid : isValidKey L = true) :
    (buildLines sks localKeys ver commit date ts).count L =
      (keptLines sks).count L + localKeys.count L := by
  unfold buildLines
  rw [List.count_append, List.count_append]
  rw [count_headerLines ver commit date ts hLvalid, count_sections sks hLvalid]
  by_cases hl : localKeys.isEmpty
  · have : localKeys = [] := by simpa [List.isEmpty_iff] using hl
    subst this
    rw [if_pos hl]
    simp
  · rw [if_neg hl]
    have h1 : (("" : String) == L) = false := by
      simp [valid_ne_empty hLvalid]
    have h2 : (("# Local (preserved)" : String) == L) = false := by
      simp only [beq_eq_false_iff_ne, ne_eq]
      exact valid_ne_hash hLvalid (by decide)
    simp [List.count_cons, h1, h2]

theorem remoteOccs_none (frs : List FetchResult) (L : String) :
    seenFind (remoteOccs frs) L = none ↔ L ∉ allLines frs := by
  induction frs with
  | nil => simp [remoteOccs, allLines, seenFind]
  | cons fr rest ih =>
    rw [show remoteOccs (fr :: rest) =
        fr.keys.map (fun k => (k.line, fr.source.url)) ++ remoteOccs rest by
      simp [remoteOccs]]
    rw [show allLines (fr :: rest) = fr.keys.map (·.line) ++ allLines rest by
      simp [allLines]]
    rw [seenFind_append_none]
    rw [show fr.keys.map (fun k => (k.line, fr.source.url)) =
        (fr.keys.map (·.line)).map (fun l => (l, fr.source.url)) by
      simp [List.map_map]]
    rw [seenFind_pairs_none, ih]
    simp [List.mem_append]

theorem buildContent_parts (frs : List FetchResult) (existing : String)
    (pl : Bool) (ver commit date ts : String) :
    (buildContent frs existing pl ver commit date ts).1 =
      String.join ((buildLines (processSources frs []).1
        (localPass pl existing (processSources frs []).2.1).1
        ver commit date ts).map (· ++ "\n")) ∧
    (buildContent frs existing pl ver commit date ts).2.duplicates =
      (processSources frs []).2.2 ++
      (localPass pl existing (processSources frs []).2.1).2.2 ∧
    (buildContent frs existing pl ver commit date ts).2.totalKeys =
      (keptLines (processSources frs []).1).length +
      (localPass pl existing (processSources frs []).2.1).1.length := by
  unfold buildContent
  rcases h1 : processSources frs [] with ⟨sks, seen, dups⟩
  rcases h2 : localPass pl existing seen with ⟨lk, s2, d2⟩
  simp only [h1, h2]
  refine ⟨trivial, trivial, ?_⟩
  simp only [keptLines, List.length_flatten, List.map_map]
  rfl

theorem remoteOccs_fst (frs : List FetchResult) :
    (remoteOccs frs).map Prod.fst = allLines frs := by
  induction frs with
  | nil => simp [remoteOccs, allLines]
  | cons fr rest ih =>
    rw [show remoteOccs (fr :: rest) =
        fr.keys.map (fun k => (k.line, fr.source.url)) ++ remoteOccs rest by
      simp [remoteOccs]]
    rw [show allLines (fr :: rest) = fr.keys.map (·.line) ++ allLines rest by
      simp [allLines]]
    rw [List.map_append, ih, List.map_map]
    rfl

/-- C2 (amended).  First-occurrence deduplication with provenance, over the
occurrences the build actually processes — every remote key line, plus the
parsed local lines only when the prior local content parses under the
64 KiB token cap (a failed local parse hits the `err == nil` guard and
silently preserves no local key at all, the final conjunct): a trimmed key
line `L` occurring in that list is kept exactly once — credited, via the
occurrence list (`seenFind (occurrencesOf …) L` is the origin of `L`'s
earliest occurrence in processing order: configured sources in declaration
order, then local last) — to its earliest origin; a line found remotely
never survives into the `Local (preserved)` list; every dropped occurrence
(cross-source, intra-source, or local) is recorded as a duplicate event
naming the first origin, and there are exactly `occurrences − 1` such
events for `L`; and the rendered line sequence contains `L` exactly
once. -/
theorem claim2_first_occurrence_dedup
    (frs : List FetchResult) (existing : String) (pl : Bool)
    (ver commit date ts : String) (L : String)
    (hL : L ∈ (occurrencesOf frs existing pl).map Prod.fst)
    (hLvalid : isValidKey L = true) :
    (keptLines (processSources frs []).1 ++
      (localPass pl existing (processSources frs []).2.1).1).count L = 1 ∧
    (∀ sk ∈ (processSources frs []).1, L ∈ sk.keys →
      seenFind (occurrencesOf frs existing pl) L = some sk.url) ∧
    (L ∈ (localPass pl existing (processSources frs []).2.1).1 →
      seenFind (occurrencesOf frs existing pl) L = some "Local") ∧
    (L ∈ allLines frs →
      L ∉ (localPass pl existing (processSources frs []).2.1).1) ∧
    (∀ d ∈ (buildContent frs existing pl ver commit date ts).2.duplicates,
      d.key = L →
        seenFind (occurrencesOf frs existing pl) L = some d.firstSource) ∧
    ((buildContent frs existing pl ver commit date ts).2.duplicates.countP
        (fun d => d.key == L) =
      ((occurrencesOf frs existing pl).map Prod.fst).count L - 1) ∧
    ((buildLines (processSources frs []).1
        (localPass pl existing (processSources frs []).2.1).1
        ver commit date ts).count L = 1) ∧
    (∀ e, parseString existing = .error e →
      (localPass pl existing (processSources frs []).2.1).1 = []) := by
  obtain ⟨-, hdup_eq, -⟩ := buildContent_parts frs existing pl ver commit date ts
  rcases hS : processSources frs [] with ⟨sks, seenR, dupsR⟩
  rcases hLP : localPass pl existing seenR with ⟨lk, seenF, dupsL⟩
  simp only [hS] at hdup_eq ⊢
  simp only [hLP] at hdup_eq ⊢
  -- facts about the remote phase
  have hmemS : ∀ M, M ∈ keptLines sks ↔ M ∈ allLines frs := by
    intro M
    have h := process_mem frs [] M
    simp only [hS] at h
    simpa [seenFind] using h
  have hnodupS : (keptLines sks).Nodup := by
    have h := process_nodup frs []
    simp only [hS] at h
    exact h
  have hcountS : ∀ M, (allLines frs).count M =
      (keptLines sks).count M + dupsR.countP (fun d => d.key == M) := by
    intro M
    have h := process_count frs [] M
    simp only [hS] at h
    exact h
  have hsections : ∀ sk ∈ sks, ∀ l ∈ sk.keys, seenFind seenR l = some sk.url := by
    have h := process_sections frs []
    simp only [hS] at h
    exact h
  have hdupsS : ∀ d ∈ dupsR,
      seenFind seenR d.key = some d.firstSource ∧ d.key ∈ allLines frs := by
    have h := process_dups frs []
    simp only [hS] at h
    exact h
  have hseenR_none : ∀ M, seenFind seenR M = none ↔ M ∉ allLines frs := by
    intro M
    have h := process_seenFind frs [] M
    simp only [hS] at h
    rw [h]
    simpa using remoteOccs_none frs M
  have hkept_some : ∀ M ∈ keptLines sks, seenFind seenR M ≠ none := by
    intro M hM h
    exact (hseenR_none M).mp h ((hmemS M).mp hM)
  -- facts about the local phase
  have hmemL : ∀ M, M ∈ lk ↔ (seenFind seenR M = none ∧
      M ∈ (if pl ∧ existing ≠ "" then
        (localParsedKeys existing).map (·.line) else [])) := by
    intro M
    by_cases hg : pl ∧ existing ≠ ""
    · have hd : dedupSourceKeys "Local" (localParsedKeys existing) seenR =
          (lk, seenF, dupsL) := by
        rw [localPass_eq, if_pos hg] at hLP
        exact hLP
      have h := dedup_mem "Local" (localParsedKeys existing) seenR M
      rw [hd] at h
      rw [if_pos hg]
      simpa using h
    · rw [localPass_eq, if_neg hg] at hLP
      cases hLP
      rw [if_neg hg]
      simp
  have hnodupL : lk.Nodup := by
    by_cases hg : pl ∧ existing ≠ ""
    · have hd : dedupSourceKeys "Local" (localParsedKeys existing) seenR =
          (lk, seenF, dupsL) := by
        rw [localPass_eq, if_pos hg] at hLP
        exact hLP
      have h := dedup_nodup "Local" (localParsedKeys existing) seenR
      rw [hd] at h
      exact h
    · rw [localPass_eq, if_neg hg] at hLP
      cases hLP
      exact List.nodup_nil
  have hcountL : ∀ M, (if pl ∧ existing ≠ "" then
        (localParsedKeys existing).map (·.line) else []).count M =
      lk.count M + dupsL.countP (fun d => d.key == M) := by
    intro M
    by_cases hg : pl ∧ existing ≠ ""
    · have hd : dedupSourceKeys "Local" (localParsedKeys existing) seenR =
          (lk, seenF, dupsL) := by
        rw [localPass_eq, if_pos hg] at hLP
        exact hLP
      have h := dedup_count "Local" (localParsedKeys existing) seenR M
      rw [hd] at h
      rw [if_pos hg]
      simpa using h
    · rw [localPass_eq, if_neg hg] at hLP
      cases hLP
      rw [if_neg hg]
      simp
  have hseenF_eq : seenF = seenR ++ lk.map (fun l => (l, "Local")) := by
    by_cases hg : pl ∧ existing ≠ ""
    · have hd : dedupSourceKeys "Local" (localParsedKeys existing) seenR =
          (lk, seenF, dupsL) := by
        rw [localPass_eq, if_pos hg] at hLP
        exact hLP
      have h := dedup_seen "Local" (localParsedKeys existing) seenR
      rw [hd] at h
      simpa using h
    · rw [localPass_eq, if_neg hg] at hLP
      cases hLP
      simp
  have hdupsL2 : ∀ d ∈ dupsL, seenFind seenF d.key = some d.firstSource := by
    by_cases hg : pl ∧ existing ≠ ""
    · have hd : dedupSourceKeys "Local" (localParsedKeys existing) seenR =
          (lk, seenF, dupsL) := by
        rw [localPass_eq, if_pos hg] at hLP
        exact hLP
      have h := dedup_dups "Local" (localParsedKeys existing) seenR
      rw [hd] at h
      intro d hdm
      exact (h d hdm).1
    · rw [localPass_eq, if_neg hg] at hLP
      cases hLP
      simp
  have hfinal : ∀ M, seenFind seenF M =
      seenFind (occurrencesOf frs existing pl) M := by
    intro M
    have h := final_seenFind frs existing pl M
    simp only [hS] at h
    simp only [hLP] at h
    exact h
  -- the occurrence lines split
  have hoccs_fst : (occurrencesOf frs existing pl).map Prod.fst =
      allLines frs ++ (if pl ∧ existing ≠ "" then
        (localParsedKeys existing).map (·.line) else []) := by
    unfold occurrencesOf
    rw [List.map_append, remoteOccs_fst]
    congr 1
    by_cases hg : pl ∧ existing ≠ ""
    · rw [if_pos hg, if_pos hg, List.map_map]
      rfl
    · rw [if_neg hg, if_neg hg]
      rfl
  -- membership of L in the combined kept lists
  have hdisj : ∀ a ∈ keptLines sks, a ∉ lk := by
    intro a ha hcon
    exact hkept_some a ha ((hmemL a).mp hcon).1
  have hmem_comb : L ∈ keptLines sks ++ lk := by
    rw [hoccs_fst] at hL
    rcases List.mem_append.mp hL with h | h
    · exact List.mem_append.mpr (Or.inl ((hmemS L).mpr h))
    · by_cases hrem : L ∈ allLines frs
      · exact List.mem_append.mpr (Or.inl ((hmemS L).mpr hrem))
      · exact List.mem_append.mpr
          (Or.inr ((hmemL L).mpr ⟨(hseenR_none L).mpr hrem, h⟩))
  have hnodup_comb : (keptLines sks ++ lk).Nodup :=
    List.nodup_append.mpr ⟨hnodupS, hnodupL, hdisj⟩
  have hcount_comb : (keptLines sks ++ lk).count L = 1 :=
    List.count_eq_one_of_mem hnodup_comb hmem_comb
  refine ⟨hcount_comb, ?_, ?_, ?_, ?_, ?_, ?_, ?_⟩
  · -- section credit
    intro sk hsk hl
    rw [← hfinal L, hseenF_eq]
    exact seenFind_append_some _ (hsections sk hsk L hl)
  · -- local credit
    intro hlk
    rw [← hfinal L, hseenF_eq, seenFind_append, ((hmemL L).mp hlk).1]
    exact seenFind_pairs_some _ hlk
  · -- remote excludes local
    intro hrem hcon
    exact hkept_some L ((hmemS L).mpr hrem) ((hmemL L).mp hcon).1
  · -- duplicate provenance
    rw [hdup_eq]
    intro d hd hkey
    rcases List.mem_append.mp hd with h | h
    · obtain ⟨h1, -⟩ := hdupsS d h
      rw [← hfinal L, hseenF_eq, ← hkey]
      exact seenFind_append_some _ h1
    · rw [← hfinal L, ← hkey]
      exact hdupsL2 d h
  · -- duplicate count
    rw [hdup_eq, hoccs_fst, List.countP_append, List.count_append]
    have h1 := hcountS L
    have h2 := hcountL L
    have h3 : (keptLines sks).count L + lk.count L = 1 := by
      rw [← List.count_append]
      exact hcount_comb
    omega
  · -- rendered line count
    rw [count_buildLines sks lk ver commit date ts hLvalid, ← List.count_append]
    exact hcount_comb
  · -- a failed local parse preserves nothing
    intro e he
    rw [localPass_eq] at hLP
    have hkeys0 : localParsedKeys existing = [] := localParsedKeys_error he
    by_cases hg : pl ∧ existing ≠ ""
    · rw [if_pos hg, hkeys0] at hLP
      simp only [dedupSourceKeys] at hLP
      cases hLP
      rfl
    · rw [if_neg hg] at hLP
      cases hLP
      rfl

/-! ## Witness data for claim C2 -/

/-- Two sources sharing a key line (with an intra-source repetition) for the
claim C2 witness. -/
def frsW : List FetchResult :=
  [{ source := ⟨"https://a.example"⟩,
     keys := [⟨"ssh-ed25519 KEY1 a", 1⟩, ⟨"ssh-ed25519 KEY1 a", 2⟩,
              ⟨"ssh-rsa KEY2 b", 3⟩],
     error := none, statusCode := 200, discardedLines := 0 },
   { source := ⟨"https://b.example"⟩,
     keys := [⟨"ssh-ed25519 KEY1 a", 1⟩, ⟨"ssh-rsa KEY3 c", 2⟩],
     error := none, statusCode := 200, discardedLines := 0 }]

/-- A local file for the claim C2 witness sharing `KEY1` with the sources. -/
def existingW : String := "ssh-ed25519 KEY1 a\necdsa-sha2 KEY4 d\n"

theorem claim2_witness :
    (keptLines (processSources frsW []).1 ++
      (localPass true existingW (processSources frsW []).2.1).1).count
      "ssh-ed25519 KEY1 a" = 1 ∧
    seenFind (occurrencesOf frsW existingW true) "ssh-ed25519 KEY1 a" =
      some "https://a.example" := by
  have h := claim2_first_occurrence_dedup frsW existingW true "v" "c" "d" "t"
    "ssh-ed25519 KEY1 a" (by decide) (by decide)
  refine ⟨h.1, ?_⟩
  exact h.2.1 ⟨"https://a.example", ["ssh-ed25519 KEY1 a", "ssh-rsa KEY2 b"]⟩
    (by decide) (by decide)

/-- A prior local file whose first line is a valid local-only key and whose
second line is 64 KiB long (claim C2 counterexample input). -/
def longLocal : String :=
  "ssh-rsa LOCALKEY x\n" ++ ⟨List.replicate maxScanTokenSize 'a'⟩

/-- The claim as frozen is false on the code: this prior local content
contains the valid, trimmed, local-only key line `ssh-rsa LOCALKEY x`, but
its second line reaches the 64 KiB token cap, so `keyparser.ParseString`
fails, the `err == nil` guard of `buildContent` silently discards every
local key, and — with no remote source supplying it — the rendered line
sequence contains that key line zero times, not exactly once. -/
theorem claim2_counterexample :
    isValidKey "ssh-rsa LOCALKEY x" = true ∧
    "ssh-rsa LOCALKEY x" ∈ (splitLines longLocal).map goTrim ∧
    (localPass true longLocal (processSources [] []).2.1).1 = [] ∧
    (buildLines (processSources [] []).1
      (localPass true longLocal (processSources [] []).2.1).1
      "v" "c" "d" "t").count "ssh-rsa LOCALKEY x" = 0 := by
  have hdata : longLocal.data =
      "ssh-rsa LOCALKEY x".data ++ '\n' :: List.replicate maxScanTokenSize 'a' := by
    rw [show longLocal =
      "ssh-rsa LOCALKEY x\n" ++ ⟨List.replicate maxScanTokenSize 'a'⟩ from rfl]
    rw [String.data_append]
    rw [show ("ssh-rsa LOCALKEY x\n" : String).data =
      "ssh-rsa LOCALKEY x".data ++ ['\n'] by decide]
    simp
  have hpieces : splitLinesAux longLocal.data [] =
      ["ssh-rsa LOCALKEY x".data, List.replicate maxScanTokenSize 'a'] := by
    rw [hdata]
    rw [splitLinesAux_append _ _ _ (by decide)]
    rw [splitLines_single (replicate_no_newline (by decide) _)
      (replicate_ne_nil (by decide))]
    simp
  have hscan : scanTooLong longLocal = true := by
    unfold scanTooLong
    rw [hpieces]
    refine List.any_eq_true.mpr
      ⟨List.replicate maxScanTokenSize 'a', by simp, ?_⟩
    simp [List.length_replicate]
  have herr : parseString longLocal = .error "bufio.Scanner: token too long" := by
    rw [parseString, if_pos hscan]
  have hne : longLocal ≠ "" := by
    intro hcon
    have hd := congrArg String.data hcon
    rw [hdata] at hd
    simp at hd
  have hk0 : localParsedKeys longLocal = [] := localParsedKeys_error herr
  have hlp : (localPass true longLocal (processSources [] []).2.1).1 = [] := by
    rw [localPass_eq, if_pos ⟨rfl, hne⟩, hk0]
    rfl
  refine ⟨by decide, ?_, hlp, ?_⟩
  · refine List.mem_map.mpr ⟨"ssh-rsa LOCALKEY x", ?_, by decide⟩
    unfold splitLines
    rw [hpieces]
    simp only [List.map_cons]
    exact List.mem_cons_self _ _
  · rw [hlp]
    rw [show (processSources ([] : List FetchResult) []).1 = [] from rfl]
    rw [show buildLines [] [] "v" "c" "d" "t" = headerLines "v" "c" "d" "t" by
      simp [buildLines]]
    exact count_headerLines _ _ _ _ (by decide)

/-! ## Claim C1 — fetch failure aborts the identity untouched -/

theorem fetchAll_err (souts : List (Source × HTTPOutcome))
    (h : ∃ p ∈ souts, (fetchOne p.1 p.2).error ≠ none) :
    (fetchAll souts).2.isSome = true := by
  induction souts with
  | nil => simp at h
  | cons p rest ih =>
    rcases p with ⟨s, o⟩
    cases he : (fetchOne s o).error with
    | some e => simp [fetchAll, he]
    | none =>
      rcases h with ⟨q, hq, hqe⟩
      rcases List.mem_cons.mp hq with rfl | hq'
      · exact absurd he hqe
      · have := ih ⟨q, hq', hqe⟩
        rcases hf : fetchAll rest with ⟨frs, err⟩
        rw [hf] at this
        simp [fetchAll, he, hf]
        simpa using this

/-- C1.  If fetching any configured source fails — including a source at a
later position after earlier sources succeeded — the pipeline of a resolved
identity aborts before any backup or write: the filesystem state is
byte-identical to its pre-run state, no backup is created or reported, and
the outcome carries a non-nil error and is not a skip. -/
theorem claim1_fetch_failure_aborts (env : UserEnv) (pol : Policy) (dr : Bool)
    (re : RenderEnv) (st : FSState)
    (hlk : env.lookup = .ok ())
    (hfail : ∃ p ∈ env.srcOuts, (fetchOne p.1 p.2).error ≠ none) :
    (syncUser env pol dr re st).1 = st ∧
    (syncUser env pol dr re st).2.error.isSome = true ∧
    (syncUser env pol dr re st).2.skipped = false ∧
    (syncUser env pol dr re st).2.changed = false ∧
    (syncUser env pol dr re st).2.backupPath = "" := by
  rcases env with ⟨lk, souts⟩
  simp only at hlk hfail
  subst hlk
  have herr := fetchAll_err souts hfail
  rcases hf : fetchAll souts with ⟨frs, err⟩
  rw [hf] at herr
  cases err with
  | none => simp at herr
  | some e => simp [syncUser, hf]

theorem claim1_witness :
    (syncUser ⟨.ok (), [(⟨"https://ok.example"⟩, .response 200 "ssh-rsa K a\n"),
        (⟨"https://bad.example"⟩, .response 404 "not found")]⟩
      ⟨true, 10, true⟩ false ⟨"v", "c", "d", "t", "bt", "id"⟩
      ⟨some "old content", ["authorized_keys_b1"]⟩).1 =
        ⟨some "old content", ["authorized_keys_b1"]⟩ ∧
    (syncUser ⟨.ok (), [(⟨"https://ok.example"⟩, .response 200 "ssh-rsa K a\n"),
        (⟨"https://bad.example"⟩, .response 404 "not found")]⟩
      ⟨true, 10, true⟩ false ⟨"v", "c", "d", "t", "bt", "id"⟩
      ⟨some "old content", ["authorized_keys_b1"]⟩).2.error.isSome = true := by
  have h := claim1_fetch_failure_aborts
    ⟨.ok (), [(⟨"https://ok.example"⟩, .response 200 "ssh-rsa K a\n"),
      (⟨"https://bad.example"⟩, .response 404 "not found")]⟩
    ⟨true, 10, true⟩ false ⟨"v", "c", "d", "t", "bt", "id"⟩
    ⟨some "old content", ["authorized_keys_b1"]⟩ rfl
    ⟨((⟨"https://bad.example"⟩ : Source), HTTPOutcome.response 404 "not found"),
      by decide, by decide⟩
  exact ⟨h.1, h.2.1⟩

/-! ## Claim C3 — lookup-failure classification by the orchestrator -/

/-- C3 (amended).  The orchestrator treats exactly user-not-found,
ssh-dir-not-found and ssh-dir-not-a-directory as SKIP conditions (outcome
`Skipped` with no error and an untouched state), while no-home-directory and
every generic lookup failure make the identity FAILED (non-nil error, not
skipped). -/
theorem claim3_lookup_classification (e : LookupErr)
    (souts : List (Source × HTTPOutcome)) (pol : Policy) (dr : Bool)
    (re : RenderEnv) (st : FSState) :
    (syncUser ⟨.error e, souts⟩ pol dr re st).1 = st ∧
    (((syncUser ⟨.error e, souts⟩ pol dr re st).2.skipped = true ∧
      (syncUser ⟨.error e, souts⟩ pol dr re st).2.error = none) ↔
      (e = .userNotFound ∨ e = .sshDirNotFound ∨ e = .sshDirNotDir)) ∧
    (((syncUser ⟨.error e, souts⟩ pol dr re st).2.skipped = false ∧
      (syncUser ⟨.error e, souts⟩ pol dr re st).2.error.isSome = true) ↔
      (e = .noHomeDir ∨ ∃ m, e = .other m)) := by
  cases e <;> simp [syncUser]

/-- The claim as frozen is false on the code: a no-home-directory lookup
failure is reported FAILED (non-nil error, not skipped), and an
ssh-dir-not-a-directory failure is reported SKIPPED. -/
theorem claim3_counterexample :
    (syncUser ⟨.error .noHomeDir, []⟩ ⟨true, 10, true⟩ false
      ⟨"v", "c", "d", "t", "bt", "id"⟩ ⟨none, []⟩).2.skipped = false ∧
    ((syncUser ⟨.error .noHomeDir, []⟩ ⟨true, 10, true⟩ false
      ⟨"v", "c", "d", "t", "bt", "id"⟩ ⟨none, []⟩).2.error).isSome = true ∧
    (syncUser ⟨.error .sshDirNotDir, []⟩ ⟨true, 10, true⟩ false
      ⟨"v", "c", "d", "t", "bt", "id"⟩ ⟨none, []⟩).2.skipped = true ∧
    (syncUser ⟨.error .sshDirNotDir, []⟩ ⟨true, 10, true⟩ false
      ⟨"v", "c", "d", "t", "bt", "id"⟩ ⟨none, []⟩).2.error = none :=
  ⟨rfl, rfl, rfl, rfl⟩

/-! ## Claim C6 — dry-run mutates nothing -/

/-- C6.  In dry-run mode the pipeline resolves, fetches and builds, then
stops: the filesystem state (target file and backup directory) is returned
unchanged, no backup is reported and the outcome never reports a change;
when resolve and fetch succeed the outcome still carries the key count of
the built content, showing the build step ran. -/
theorem claim6_dry_run_no_mutation (env : UserEnv) (pol : Policy)
    (re : RenderEnv) (st : FSState) :
    (syncUser env pol true re st).1 = st ∧
    (syncUser env pol true re st).2.changed = false ∧
    (syncUser env pol true re st).2.backupPath = "" ∧
    (env.lookup = .ok () → (fetchAll env.srcOuts).2 = none →
      (syncUser env pol true re st).2.keysWritten =
        (buildContent (fetchAll env.srcOuts).1 (readContent st)
          pol.preserveLocalKeys re.ver re.commit re.date re.ts).2.totalKeys) := by
  rcases env with ⟨lk, souts⟩
  cases lk with
  | error e => cases e <;> simp [syncUser]
  | ok u =>
    cases u
    rcases hf : fetchAll souts with ⟨frs, err⟩
    cases err with
    | none => simp [syncUser, hf]
    | some e => simp [syncUser, hf]

theorem claim6_witness :
    (syncUser ⟨.ok (), [(⟨"https://a.example"⟩, .response 200 "ssh-rsa K a\n")]⟩
      ⟨true, 10, true⟩ true ⟨"v", "c", "d", "t", "bt", "id"⟩
      ⟨some "ssh-rsa OLD o\n", ["authorized_keys_b1"]⟩).1 =
      ⟨some "ssh-rsa OLD o\n", ["authorized_keys_b1"]⟩ ∧
    (syncUser ⟨.ok (), [(⟨"https://a.example"⟩, .response 200 "ssh-rsa K a\n")]⟩
      ⟨true, 10, true⟩ true ⟨"v", "c", "d", "t", "bt", "id"⟩
      ⟨some "ssh-rsa OLD o\n", ["authorized_keys_b1"]⟩).2.keysWritten =
      (buildContent (fetchAll [(⟨"https://a.example"⟩,
          .response 200 "ssh-rsa K a\n")]).1 "ssh-rsa OLD o\n"
        true "v" "c" "d" "t").2.totalKeys := by
  have h := claim6_dry_run_no_mutation
    ⟨.ok (), [(⟨"https://a.example"⟩, .response 200 "ssh-rsa K a\n")]⟩
    ⟨true, 10, true⟩ ⟨"v", "c", "d", "t", "bt", "id"⟩
    ⟨some "ssh-rsa OLD o\n", ["authorized_keys_b1"]⟩
  exact ⟨h.1, h.2.2.2 rfl (by decide)⟩

/-! ## Claim C8 — exit status -/

/-- C8.  The exit status is success (0) iff no identity's outcome carries a
non-nil error, and failure (1) iff at least one does; appending a skipped,
error-free outcome never changes the exit status. -/
theorem claim8_exit_status (results : List UserResult) :
    (exitCode results = 0 ↔ ∀ r ∈ results, r.error = none) ∧
    (exitCode results = 1 ↔ ∃ r ∈ results, r.error ≠ none) ∧
    (∀ s : UserResult, s.skipped = true → s.error = none →
      exitCode (results ++ [s]) = exitCode results) := by
  have h0 : (failedCount results = 0) ↔ (∀ r ∈ results, r.error = none) := by
    unfold failedCount
    rw [List.countP_eq_zero]
    constructor
    · intro h r hr
      have := h r hr
      cases he : r.error with
      | none => rfl
      | some v => rw [he] at this; simp at this
    · intro h r hr
      rw [h r hr]
      simp
  have hpos : (0 < failedCount results) ↔ (∃ r ∈ results, r.error ≠ none) := by
    unfold failedCount
    rw [List.countP_pos_iff]
    constructor
    · rintro ⟨r, hr, hp⟩
      exact ⟨r, hr, by simp [Option.isSome_iff_ne_none] at hp; exact hp⟩
    · rintro ⟨r, hr, hp⟩
      exact ⟨r, hr, by simpa [Option.isSome_iff_ne_none] using hp⟩
  refine ⟨?_, ?_, ?_⟩
  · unfold exitCode
    by_cases hp : 0 < failedCount results
    · rw [if_pos hp]
      refine iff_of_false (by omega) fun hall => ?_
      have := h0.mpr hall
      omega
    · rw [if_neg hp]
      exact iff_of_true rfl (h0.mp (by omega))
  · unfold exitCode
    by_cases hp : 0 < failedCount results
    · rw [if_pos hp]
      exact iff_of_true rfl (hpos.mp hp)
    · rw [if_neg hp]
      refine iff_of_false (by omega) ?_
      intro hex
      exact hp (hpos.mpr hex)
  · intro s hs hse
    unfold exitCode failedCount
    rw [List.countP_append]
    simp [hse]

theorem claim8_witness :
    exitCode [({ username := "a", skipped := true } : UserResult)] = 0 ∧
    exitCode [({ username := "a", error := some "boom" } : UserResult)] = 1 := by
  have h1 := (claim8_exit_status
    [({ username := "a", skipped := true } : UserResult)]).1
  have h2 := (claim8_exit_status
    [({ username := "a", error := some "boom" } : UserResult)]).2.1
  refine ⟨h1.mpr ?_, h2.mpr ?_⟩
  · intro r hr
    rcases List.mem_cons.mp hr with rfl | h
    · rfl
    · cases h
  · exact ⟨{ username := "a", error := some "boom" }, by decide, by decide⟩

/-! ## Claim C9 — behaviour after cancellation -/

/-- C9 (amended).  Once cancellation is in effect every HTTP call fails with
a transport-level cancellation error, which fails that identity's pipeline
and leaves its file untouched — but the run loop does not stop: every
remaining identity is still processed (one entry per configured identity
appears in the result list) and each is reported FAILED at its first
fetch. -/
theorem claim9_cancellation (users : List (UserEnv × FSState)) (pol : Policy)
    (dr : Bool) (re : RenderEnv)
    (hc : ∀ u ∈ users, u.1.lookup = .ok () ∧
      ∃ s msg rest, u.1.srcOuts = (s, HTTPOutcome.transportError msg) :: rest) :
    (runUsers users pol dr re).length = users.length ∧
    ∀ u ∈ users,
      (syncUser u.1 pol dr re u.2).2.error.isSome = true ∧
      (syncUser u.1 pol dr re u.2).1 = u.2 ∧
      syncUser u.1 pol dr re u.2 ∈ runUsers users pol dr re := by
  refine ⟨by simp [runUsers], ?_⟩
  intro u hu
  obtain ⟨hlk, s, msg, rest, hsrc⟩ := hc u hu
  have hfail : ∃ p ∈ u.1.srcOuts, (fetchOne p.1 p.2).error ≠ none := by
    rw [hsrc]
    exact ⟨(s, .transportError msg), by simp, by simp [fetchOne]⟩
  have h := claim1_fetch_failure_aborts u.1 pol dr re u.2 hlk hfail
  exact ⟨h.2.1, h.1, List.mem_map_of_mem _ hu⟩

/-- The claim as frozen is false on the code: with cancellation in effect
from the start, the loop still advances past the first identity — the
second identity is processed and reported FAILED with a cancellation
error. -/
theorem claim9_counterexample :
    (runUsers
      [(⟨.ok (), [(⟨"https://u1.example"⟩, .transportError "context canceled")]⟩,
        ⟨some "k1", []⟩),
       (⟨.ok (), [(⟨"https://u2.example"⟩, .transportError "context canceled")]⟩,
        ⟨some "k2", []⟩)]
      ⟨true, 10, true⟩ false ⟨"v", "c", "d", "t", "bt", "id"⟩).length = 2 ∧
    ((runUsers
      [(⟨.ok (), [(⟨"https://u1.example"⟩, .transportError "context canceled")]⟩,
        ⟨some "k1", []⟩),
       (⟨.ok (), [(⟨"https://u2.example"⟩, .transportError "context canceled")]⟩,
        ⟨some "k2", []⟩)]
      ⟨true, 10, true⟩ false ⟨"v", "c", "d", "t", "bt", "id"⟩).getD 1
        (⟨none, []⟩, {})).2.error =
      some ("failed to fetch keys: source https://u2.example failed: " ++
        "request failed: context canceled") :=
  ⟨rfl, rfl⟩

theorem claim9_witness :
    (runUsers
      [(⟨.ok (), [(⟨"https://u1.example"⟩, .transportError "context canceled")]⟩,
        ⟨some "k1", []⟩),
       (⟨.ok (), [(⟨"https://u2.example"⟩, .transportError "context canceled")]⟩,
        ⟨some "k2", []⟩)]
      ⟨true, 10, true⟩ false ⟨"v", "c", "d", "t", "bt", "id"⟩).length = 2 ∧
    (syncUser ⟨.ok (), [(⟨"https://u2.example"⟩,
        .transportError "context canceled")]⟩ ⟨true, 10, true⟩ false
      ⟨"v", "c", "d", "t", "bt", "id"⟩ ⟨some "k2", []⟩).1 = ⟨some "k2", []⟩ := by
  have h := claim9_cancellation
    [(⟨.ok (), [(⟨"https://u1.example"⟩, .transportError "context canceled")]⟩,
      ⟨some "k1", []⟩),
     (⟨.ok (), [(⟨"https://u2.example"⟩, .transportError "context canceled")]⟩,
      ⟨some "k2", []⟩)]
    ⟨true, 10, true⟩ false ⟨"v", "c", "d", "t", "bt", "id"⟩
    (by intro u hu
        rcases List.mem_cons.mp hu with rfl | hu'
        · exact ⟨rfl, _, "context canceled", [], rfl⟩
        · rcases List.mem_cons.mp hu' with rfl | h
          · exact ⟨rfl, _, "context canceled", [], rfl⟩
          · cases h)
  refine ⟨h.1, ?_⟩
  exact (h.2 (⟨.ok (), [(⟨"https://u2.example"⟩,
    .transportError "context canceled")]⟩, ⟨some "k2", []⟩) (by simp)).2.1

/-! ## Claim C10 — silent 10 MiB truncation -/

/-- C10 (amended).  For a 200 response whose body exceeds `MaxResponseSize`
(10 MiB), `Fetch` reads only the first `MaxResponseSize` bytes and nothing
records the truncation: its result is identical to fetching the truncated
body, which is strictly shorter.  When that truncated prefix parses (every
line under the 64 KiB token cap), the error is nil and only the prefix's
keys are returned — silent truncation; but when the prefix contains a
64 KiB+ line (in particular when the 10 MiB cut falls inside a long line),
`ParseString` fails and `Fetch` returns a non-nil `failed to parse keys`
error instead of `Error = nil`. -/
theorem claim10_silent_truncation (src : Source) (body : String)
    (h : maxResponseSize < body.data.length) :
    (fetchOne src (.response 200 body) =
      fetchOne src (.response 200 ⟨body.data.take maxResponseSize⟩)) ∧
    (⟨body.data.take maxResponseSize⟩ : String).data.length <
      body.data.length ∧
    (∀ pr, parseString ⟨body.data.take maxResponseSize⟩ = .ok pr →
      (fetchOne src (.response 200 body)).error = none ∧
      (fetchOne src (.response 200 body)).keys = pr.keys ∧
      (fetchOne src (.response 200 body)).discardedLines =
        pr.discardedLines) ∧
    (∀ e, parseString ⟨body.data.take maxResponseSize⟩ = .error e →
      (fetchOne src (.response 200 body)).error =
        some ("failed to parse keys: " ++ e)) := by
  refine ⟨?_, ?_, ?_, ?_⟩
  · simp [fetchOne, List.take_take]
  · show (body.data.take maxResponseSize).length < body.data.length
    rw [List.length_take]
    omega
  · intro pr hok
    simp [fetchOne, hok]
  · intro e herr
    simp [fetchOne, herr]

/-- A body one byte over the cap — a single over-long line — for the claim
C10 witness and counterexample. -/
def bigBody : String := ⟨List.replicate (maxResponseSize + 1) 'a'⟩

theorem claim10_witness :
    (fetchOne ⟨"https://big.example"⟩ (.response 200 bigBody) =
      fetchOne ⟨"https://big.example"⟩
        (.response 200 ⟨bigBody.data.take maxResponseSize⟩)) ∧
    (⟨bigBody.data.take maxResponseSize⟩ : String).data.length <
      bigBody.data.length := by
  have h := claim10_silent_truncation ⟨"https://big.example"⟩ bigBody (by
    show maxResponseSize < (List.replicate (maxResponseSize + 1) 'a').length
    rw [List.length_replicate]
    omega)
  exact ⟨h.1, h.2.1⟩

/-- The claim as frozen is false on the code: for this oversized body — a
single line of `MaxResponseSize + 1` bytes — the truncated 10 MiB prefix is
one 10 MiB line, far over the 64 KiB token cap, so `ParseString` fails and
`Fetch` returns the non-nil `failed to parse keys` error of
`keyfetcher.go`, not `Error = nil`. -/
theorem claim10_counterexample :
    (fetchOne ⟨"https://big.example"⟩ (.response 200 bigBody)).error =
      some ("failed to parse keys: " ++ "bufio.Scanner: token too long") := by
  have htake : (⟨bigBody.data.take maxResponseSize⟩ : String) =
      ⟨List.replicate maxResponseSize 'a'⟩ := by
    refine congrArg String.mk ?_
    rw [show bigBody.data = List.replicate (maxResponseSize + 1) 'a' from rfl]
    rw [List.take_replicate]
    congr 1
  have hscan : scanTooLong ⟨bigBody.data.take maxResponseSize⟩ = true := by
    rw [htake]
    exact scanTooLong_replicate (by decide) (by decide)
  have herr : parseString ⟨bigBody.data.take maxResponseSize⟩ =
      .error "bufio.Scanner: token too long" := by
    rw [parseString, if_pos hscan]
  simp [fetchOne, herr]

/-! ## Claim C7 — backup rotation -/

/-- C7.  For a directory listing containing `N` backup-stem files and a
retention count `R`: a negative `R` is an error (and nothing is deleted —
the error return precedes any deletion); for `R ≥ 0` rotation succeeds and
deletes exactly `N - R` files (truncated at zero, so `max 0 (N − R)`),
namely lexicographically smallest ones: the deleted and the kept files
together are exactly the `N` backup files, every deleted name is ≤ every
kept name, the deleted names are listed in ascending (deletion) order, and
`min N R` files — the most recent — remain; `R = 0` keeps none. -/
theorem claim7_rotate_backups (entries : List DirEntry) (R : Int) :
    (R < 0 → rotateBackups entries R =
      .error "retention count cannot be negative") ∧
    (0 ≤ R → ∃ deleted kept,
      rotateBackups entries R = .ok deleted ∧
      deleted.length = (((entries.filter (fun e => !e.isDir &&
        strStartsWith e.name "authorized_keys_")).map (·.name)).length
          - R.toNat) ∧
      ((deleted ++ kept).Perm ((entries.filter (fun e => !e.isDir &&
        strStartsWith e.name "authorized_keys_")).map (·.name))) ∧
      kept.length = min ((entries.filter (fun e => !e.isDir &&
        strStartsWith e.name "authorized_keys_")).map (·.name)).length R.toNat ∧
      (∀ d ∈ deleted, ∀ k ∈ kept, d ≤ k) ∧
      List.Sorted (· ≤ ·) deleted) := by
  constructor
  · intro hR
    unfold rotateBackups
    rw [if_pos hR]
  · intro hR
    unfold rotateBackups
    rw [if_neg (not_lt.mpr hR)]
    have hperm := List.perm_insertionSort (α := String) (· ≤ ·)
      ((entries.filter (fun e => !e.isDir &&
        strStartsWith e.name "authorized_keys_")).map (·.name))
    have hsort := List.sorted_insertionSort (α := String) (· ≤ ·)
      ((entries.filter (fun e => !e.isDir &&
        strStartsWith e.name "authorized_keys_")).map (·.name))
    set backups := (entries.filter (fun e => !e.isDir &&
      strStartsWith e.name "authorized_keys_")).map (·.name) with hbk
    set sorted := List.insertionSort (· ≤ ·) backups with hsorted
    have hlen : sorted.length = backups.length := hperm.length_eq
    by_cases hd : (backups.length : Int) - R ≤ 0
    · rw [if_pos hd]
      refine ⟨[], backups, rfl, by simp; omega, by simp, by omega, by simp, by simp⟩
    · rw [if_neg hd]
      set cnt := ((backups.length : Int) - R).toNat with hcnt
      have hcle : cnt ≤ sorted.length := by omega
      refine ⟨sorted.take cnt, sorted.drop cnt, rfl, ?_, ?_, ?_, ?_, ?_⟩
      · rw [List.length_take]
        omega
      · rw [List.take_append_drop]
        exact hperm
      · rw [List.length_drop]
        omega
      · have hpw : List.Pairwise (· ≤ ·) (sorted.take cnt ++ sorted.drop cnt) := by
          rw [List.take_append_drop]
          exact hsort
        exact (List.pairwise_append.mp hpw).2.2
      · exact hsort.sublist (List.take_sublist cnt sorted)

/-- A mixed directory listing (three backup files out of order, one
subdirectory, one foreign file) for the claim C7 witness. -/
def entriesW : List DirEntry :=
  [⟨"authorized_keys_20240103_100000_ccc", false⟩,
   ⟨"authorized_keys_20240101_100000_aaa", false⟩,
   ⟨"some_other_file.txt", false⟩,
   ⟨"authorized_keys_20240102_100000_bbb", false⟩,
   ⟨"authorized_keys_nested", true⟩]

theorem claim7_witness :
    (rotateBackups entriesW (-1) =
      .error "retention count cannot be negative") ∧
    ∃ (deleted kept : List String), rotateBackups entriesW 1 = .ok deleted ∧
      deleted.length = 2 ∧ kept.length = 1 ∧
      (∀ d ∈ deleted, ∀ k ∈ kept, d ≤ k) := by
  refine ⟨(claim7_rotate_backups entriesW (-1)).1 (by omega), ?_⟩
  obtain ⟨deleted, kept, h1, h2, h3, h4, h5, h6⟩ :=
    (claim7_rotate_backups entriesW 1).2 (by omega)
  refine ⟨deleted, kept, h1, ?_, ?_, h5⟩
  · rw [h2]
    decide
  · rw [h4]
    decide

/-! ## Claim C4 — reparse and self-stabilisation lemmas -/

theorem join_data (ls : List String) :
    (String.join ls).data = (ls.map String.data).flatten := by
  have haux : ∀ (acc : String) (ls : List String),
      (ls.foldl (· ++ ·) acc).data = acc.data ++ (ls.map String.data).flatten := by
    intro acc ls
    induction ls generalizing acc with
    | nil => simp
    | cons s rest ih =>
      simp only [List.foldl_cons, List.map_cons, List.flatten_cons]
      rw [ih, String.data_append, List.append_assoc]
  have := haux "" ls
  simpa [String.join] using this

/-- Splitting the rendered byte stream recovers exactly the rendered
lines. -/
theorem splitLines_join (lines : List String)
    (h : ∀ l ∈ lines, ∀ c ∈ l.data, c ≠ '\n') :
    splitLines (String.join (lines.map (· ++ "\n"))) = lines := by
  induction lines with
  | nil => rfl
  | cons l rest ih =>
    have hl : ∀ c ∈ l.data, c ≠ '\n' := h l (by simp)
    have hrest : ∀ m ∈ rest, ∀ c ∈ m.data, c ≠ '\n' := by
      intro m hm
      exact h m (by simp [hm])
    unfold splitLines
    rw [join_data]
    simp only [List.map_cons, List.map_map, List.flatten_cons]
    rw [show (l ++ "\n").data = l.data ++ ['\n'] by
      rw [String.data_append]]
    rw [List.append_assoc]
    rw [show (['\n'] : List Char) ++
        (List.map (String.data ∘ fun x => x ++ "\n") rest).flatten =
        '\n' :: (List.map (String.data ∘ fun x => x ++ "\n") rest).flatten by rfl]
    rw [splitLinesAux_append _ _ _ hl]
    simp only [List.reverse_nil, List.nil_append, List.map_cons]
    congr 1
    have := ih hrest
    unfold splitLines at this
    rw [join_data] at this
    simpa [List.map_map] using this

/-- The trimmed texts the parser keeps, in order: the trims of the lines
whose trims pass the validity rule. -/
theorem parseLoop_keys_lines (ls : List String) (n : Nat) :
    (parseLoop ls n).keys.map (·.line) = (ls.map goTrim).filter isValidKey := by
  induction ls generalizing n with
  | nil => rfl
  | cons raw rest ih =>
    by_cases hv : isValidKey (goTrim raw)
    · simp [parseLoop, hv, List.filter_cons, ih]
    · by_cases he : goTrim raw = ""
      · simp [parseLoop, hv, he, List.filter_cons, ih, isValidKey_empty]
      · simp [parseLoop, hv, he, List.filter_cons, ih]

/-- A line starting with `#` never survives trim-then-validate. -/
theorem trim_hash_invalid {s : String} (h : startsWithChar s '#' = true) :
    isValidKey (goTrim s) = false := by
  cases hs : s.data with
  | nil => simp [startsWithChar, hs] at h
  | cons a t =>
    have ha : a = '#' := by simpa [startsWithChar, hs] using h
    subst ha
    have hh := trimChars_head (c := '#') (by decide) t
    cases hv : isValidKey (goTrim s)
    · rfl
    · exfalso
      obtain ⟨-, h2, -⟩ := (isValidKey_iff (goTrim s)).mp hv
      have hd : (goTrim s).data = trimChars ('#' :: t) := by
        rw [show (goTrim s).data = trimChars s.data from rfl, hs]
      rw [startsWithChar, hd, hh] at h2
      simp at h2

theorem trim_empty : goTrim "" = "" := by decide

theorem map_trim_self {l : List String} (h : ∀ x ∈ l, goTrim x = x) :
    l.map goTrim = l := by
  induction l with
  | nil => rfl
  | cons a t ih =>
    rw [List.map_cons, h a (by simp), ih (fun x hx => h x (by simp [hx]))]

/-- Re-classifying the rendered lines keeps exactly the key lines: header
and section-marker lines are filtered out, every kept key line survives
unchanged. -/
theorem reparse_buildLines (sks : List SourceKeys) (localKeys : List String)
    (ver commit date ts : String)
    (hkept : ∀ l ∈ keptLines sks, goTrim l = l ∧ isValidKey l = true)
    (hlocal : ∀ l ∈ localKeys, goTrim l = l ∧ isValidKey l = true) :
    ((buildLines sks localKeys ver commit date ts).map goTrim).filter isValidKey
      = keptLines sks ++ localKeys := by
  unfold buildLines
  rw [List.map_append, List.map_append, List.filter_append, List.filter_append]
  have hhdr : ((headerLines ver commit date ts).map goTrim).filter isValidKey
      = [] := by
    have e1 : isValidKey (goTrim hrLine) = false := trim_hash_invalid (by decide)
    have e2 : isValidKey (goTrim "# Generated by AuthKeySync") = false :=
      trim_hash_invalid (by decide)
    have e3 : isValidKey (goTrim ("# Version:   " ++ ver)) = false :=
      trim_hash_invalid
        (by rw [startsWithChar_append_left _ _ _ (by decide)]; decide)
    have e4 : isValidKey (goTrim ("# Commit:    " ++ commit)) = false :=
      trim_hash_invalid
        (by rw [startsWithChar_append_left _ _ _ (by decide)]; decide)
    have e5 : isValidKey (goTrim ("# Built:     " ++ date)) = false :=
      trim_hash_invalid
        (by rw [startsWithChar_append_left _ _ _ (by decide)]; decide)
    have e6 : isValidKey (goTrim ("# Last sync: " ++ ts)) = false :=
      trim_hash_invalid
        (by rw [startsWithChar_append_left _ _ _ (by decide)]; decide)
    have e7 : isValidKey
        (goTrim "# More info: https://github.com/eduardolat/authkeysync")
        = false := trim_hash_invalid (by decide)
    simp [headerLines, List.filter_cons, e1, e2, e3, e4, e5, e6, e7]
  have hsec : ∀ (sks : List SourceKeys),
      (∀ l ∈ keptLines sks, goTrim l = l ∧ isValidKey l = true) →
      (((sks.map (fun sk => ["", "# Source: " ++ sk.url] ++ sk.keys)).flatten.map
          goTrim).filter isValidKey) = keptLines sks := by
    intro sks hk
    induction sks with
    | nil => simp [keptLines]
    | cons sk rest ih =>
      have hkhead : ∀ l ∈ sk.keys, goTrim l = l ∧ isValidKey l = true := by
        intro l hl
        exact hk l (by simp [keptLines, hl])
      have hkrest : ∀ l ∈ keptLines rest, goTrim l = l ∧ isValidKey l = true := by
        intro l hl
        refine hk l ?_
        simp only [keptLines, List.map_cons, List.flatten_cons, List.mem_append]
        right
        simpa [keptLines] using hl
      have emark : isValidKey (goTrim ("# Source: " ++ sk.url)) = false :=
        trim_hash_invalid
          (by rw [startsWithChar_append_left _ _ _ (by decide)]; decide)
      have hkeys_map : sk.keys.map goTrim = sk.keys :=
        map_trim_self (fun x hx => (hkhead x hx).1)
      have hkeys_filter : sk.keys.filter isValidKey = sk.keys :=
        List.filter_eq_self.mpr (fun x hx => (hkhead x hx).2)
      rw [List.map_cons, List.flatten_cons, List.map_append, List.filter_append]
      rw [show ((["", "# Source: " ++ sk.url] ++ sk.keys).map goTrim).filter
            isValidKey = sk.keys by
        rw [List.map_append, List.filter_append, hkeys_map, hkeys_filter]
        simp [List.filter_cons, trim_empty, isValidKey_empty, emark]]
      rw [ih hkrest]
      simp [keptLines]
  rw [hhdr, hsec sks hkept]
  by_cases hl : localKeys.isEmpty
  · have : localKeys = [] := by simpa [List.isEmpty_iff] using hl
    subst this
    rw [if_pos hl]
    simp
  · rw [if_neg hl]
    have emark : isValidKey (goTrim "# Local (preserved)") = false :=
      trim_hash_invalid (by decide)
    have hmap : localKeys.map goTrim = localKeys :=
      map_trim_self (fun x hx => (hlocal x hx).1)
    have hfil : localKeys.filter isValidKey = localKeys :=
      List.filter_eq_self.mpr (fun x hx => (hlocal x hx).2)
    rw [List.map_append, List.filter_append]
    rw [show ((["", "# Local (preserved)"] : List String).map goTrim).filter
          isValidKey = [] by
      simp [List.filter_cons, trim_empty, isValidKey_empty, emark]]
    rw [hmap, hfil]
    simp

theorem dedup_append (url : String) (a b : List ParsedKey)
    (seen : List (String × String)) :
    dedupSourceKeys url (a ++ b) seen =
      ((dedupSourceKeys url a seen).1 ++
        (dedupSourceKeys url b (dedupSourceKeys url a seen).2.1).1,
       (dedupSourceKeys url b (dedupSourceKeys url a seen).2.1).2.1,
       (dedupSourceKeys url a seen).2.2 ++
        (dedupSourceKeys url b (dedupSourceKeys url a seen).2.1).2.2) := by
  induction a generalizing seen with
  | nil => simp [dedupSourceKeys]
  | cons k rest ih =>
    cases hf : seenFind seen k.line with
    | some first =>
      rcases hr1 : dedupSourceKeys url rest seen with ⟨k1, s1, d1⟩
      have hih := ih seen
      rw [hr1] at hih
      simp only [List.cons_append, dedupSourceKeys, hf, hr1]
      rw [show rest.append b = rest ++ b from rfl, hih]
    | none =>
      rcases hr1 : dedupSourceKeys url rest (seen ++ [(k.line, url)]) with
        ⟨k1, s1, d1⟩
      have hih := ih (seen ++ [(k.line, url)])
      rw [hr1] at hih
      simp only [List.cons_append, dedupSourceKeys, hf, hr1]
      rw [show rest.append b = rest ++ b from rfl, hih]

theorem dedup_kept_nil (url : String) (keys : List ParsedKey)
    (seen : List (String × String))
    (h : ∀ k ∈ keys, seenFind seen k.line ≠ none) :
    (dedupSourceKeys url keys seen).1 = [] ∧
    (dedupSourceKeys url keys seen).2.1 = seen := by
  have h1 : (dedupSourceKeys url keys seen).1 = [] := by
    rw [List.eq_nil_iff_forall_not_mem]
    intro L hL
    obtain ⟨hnone, hmemk⟩ := (dedup_mem url keys seen L).mp hL
    obtain ⟨k, hk, hkL⟩ := List.mem_map.mp hmemk
    exact h k hk (by rw [hkL]; exact hnone)
  refine ⟨h1, ?_⟩
  have := dedup_seen url keys seen
  rw [h1] at this
  simpa using this

theorem dedup_fresh (url : String) (keys : List ParsedKey)
    (seen : List (String × String)) (hnd : (keys.map (·.line)).Nodup)
    (hfresh : ∀ k ∈ keys, seenFind seen k.line = none) :
    (dedupSourceKeys url keys seen).1 = keys.map (·.line) := by
  induction keys generalizing seen with
  | nil => simp [dedupSourceKeys]
  | cons k rest ih =>
    have hf := hfresh k (by simp)
    rcases hrec : dedupSourceKeys url rest (seen ++ [(k.line, url)]) with
      ⟨kept, seen', dups⟩
    simp only [dedupSourceKeys, hf, hrec, List.map_cons]
    simp only [List.map_cons] at hnd
    have hknotin : k.line ∉ rest.map (·.line) := (List.nodup_cons.mp hnd).1
    have := ih (seen ++ [(k.line, url)]) (List.nodup_cons.mp hnd).2 ?_
    · rw [hrec] at this
      simpa using this
    · intro z hz
      rw [seenFind_append_none]
      refine ⟨hfresh z (by simp [hz]), ?_⟩
      have hzne : ¬z.line = k.line := by
        intro hcon
        exact hknotin (hcon ▸ List.mem_map_of_mem (·.line) hz)
      have hzk : ¬k.line = z.line := fun hcon => hzne hcon.symm
      simp [seenFind, hzk]

theorem seenR_none (frs : List FetchResult) (M : String) :
    seenFind (processSources frs []).2.1 M = none ↔ M ∉ allLines frs := by
  have h := process_seenFind frs [] M
  rw [h]
  simpa using remoteOccs_none frs M

theorem writeAtomic_target (st : FSState) (c : String) :
    (writeAtomic st c).1.target = some c := by
  rcases st with ⟨tg, bk⟩
  cases tg with
  | none => rfl
  | some x =>
    by_cases hx : x = c
    · simp [writeAtomic, hx]
    · simp [writeAtomic, hx]

theorem process_urls (frs : List FetchResult) (seen : List (String × String)) :
    ∀ sk ∈ (processSources frs seen).1, ∃ fr ∈ frs, sk.url = fr.source.url := by
  induction frs generalizing seen with
  | nil => simp [processSources]
  | cons fr rest ih =>
    rcases hd : dedupSourceKeys fr.source.url fr.keys seen with ⟨kept, seen1, dups1⟩
    rcases hp : processSources rest seen1 with ⟨sks, seen2, dups2⟩
    have ihh : ∀ sk ∈ sks, ∃ fr ∈ rest, sk.url = fr.source.url := by
      have := ih seen1
      rw [hp] at this
      simpa using this
    simp only [processSources, hd, hp]
    intro sk hsk
    by_cases hk : kept.isEmpty
    · rw [if_pos hk] at hsk
      obtain ⟨f, hf, hu⟩ := ihh sk hsk
      exact ⟨f, by simp [hf], hu⟩
    · rw [if_neg hk] at hsk
      rcases List.mem_cons.mp hsk with rfl | hsk'
      · exact ⟨fr, by simp, rfl⟩
      · obtain ⟨f, hf, hu⟩ := ihh sk hsk'
        exact ⟨f, by simp [hf], hu⟩

/-- Rebuilding from the previous run's own output (same sources, same header
metadata) reproduces it exactly, up to the embedded timestamp parameter:
the second build equals the first build with the new timestamp plugged in.
`hcap` asks that the first output scan under the 64 KiB token cap — true of
program-produced content, whose key lines come out of the capped parser and
whose header and section lines carry config-sized metadata — so that the
second run's local reparse passes the `err == nil` guard. -/
theorem buildContent_stable (frs : List FetchResult) (existing : String)
    (pl : Bool) (ver commit date ts ts' : String)
    (hkeys : ∀ fr ∈ frs, ∀ k ∈ fr.keys,
      goTrim k.line = k.line ∧ isValidKey k.line = true ∧
        ∀ c ∈ k.line.data, c ≠ '\n')
    (hurls : ∀ fr ∈ frs, ∀ c ∈ fr.source.url.data, c ≠ '\n')
    (hver : ∀ c ∈ ver.data, c ≠ '\n') (hcommit : ∀ c ∈ commit.data, c ≠ '\n')
    (hdate : ∀ c ∈ date.data, c ≠ '\n') (hts : ∀ c ∈ ts.data, c ≠ '\n')
    (hcap : scanTooLong (buildContent frs existing pl ver commit date ts).1
      = false) :
    (buildContent frs (buildContent frs existing pl ver commit date ts).1
      pl ver commit date ts').1 =
    (buildContent frs existing pl ver commit date ts').1 := by
  obtain ⟨hc1, -, -⟩ := buildContent_parts frs existing pl ver commit date ts
  obtain ⟨hc2, -, -⟩ := buildContent_parts frs
    (buildContent frs existing pl ver commit date ts).1 pl ver commit date ts'
  obtain ⟨hc3, -, -⟩ := buildContent_parts frs existing pl ver commit date ts'
  -- validity of every remote line
  have hall : ∀ M ∈ allLines frs,
      goTrim M = M ∧ isValidKey M = true ∧ ∀ c ∈ M.data, c ≠ '\n' := by
    intro M hM
    unfold allLines at hM
    obtain ⟨l, hl, hMl⟩ := List.mem_flatten.mp hM
    obtain ⟨fr, hfr, rfl⟩ := List.mem_map.mp hl
    obtain ⟨k, hk, rfl⟩ := List.mem_map.mp hMl
    exact hkeys fr hfr k hk
  have hkept_all : ∀ l ∈ keptLines (processSources frs []).1, l ∈ allLines frs := by
    intro l hl
    have h := process_mem frs [] l
    exact (h.mp hl).2
  have hkeptv : ∀ l ∈ keptLines (processSources frs []).1,
      goTrim l = l ∧ isValidKey l = true ∧ ∀ c ∈ l.data, c ≠ '\n' :=
    fun l hl => hall l (hkept_all l hl)
  -- validity of the preserved local lines, and their freshness
  have hlkv : ∀ l ∈ (localPass pl existing (processSources frs []).2.1).1,
      (goTrim l = l ∧ isValidKey l = true ∧ ∀ c ∈ l.data, c ≠ '\n') ∧
      seenFind (processSources frs []).2.1 l = none := by
    intro l hl
    by_cases hg : pl ∧ existing ≠ ""
    · rw [localPass_eq, if_pos hg] at hl
      have hm := dedup_mem "Local" (localParsedKeys existing)
        (processSources frs []).2.1 l
      obtain ⟨hnone, hmem⟩ := hm.mp hl
      obtain ⟨k, hk, rfl⟩ := List.mem_map.mp hmem
      obtain ⟨v1, v2, v3⟩ := localParsedKeys_valid existing k hk
      exact ⟨⟨v1, v2, v3⟩, hnone⟩
    · rw [localPass_eq, if_neg hg] at hl
      cases hl
  have hlk_nodup : (localPass pl existing (processSources frs []).2.1).1.Nodup := by
    by_cases hg : pl ∧ existing ≠ ""
    · rw [localPass_eq, if_pos hg]
      exact dedup_nodup _ _ _
    · rw [localPass_eq, if_neg hg]
      exact List.nodup_nil
  -- no rendered line contains a newline
  have hlines_nl : ∀ line ∈ buildLines (processSources frs []).1
      (localPass pl existing (processSources frs []).2.1).1 ver commit date ts,
      ∀ c ∈ line.data, c ≠ '\n' := by
    intro line hline
    unfold buildLines at hline
    rcases List.mem_append.mp hline with hmem | hmem
    · rcases List.mem_append.mp hmem with hmem | hmem
      · simp only [headerLines, List.mem_cons, List.not_mem_nil, or_false] at hmem
        rcases hmem with rfl | rfl | rfl | rfl | rfl | rfl | rfl | rfl
        · decide
        · decide
        · intro c hc
          rw [String.data_append] at hc
          rcases List.mem_append.mp hc with h | h
          · exact (by decide : ∀ c ∈ ("# Version:   " : String).data, c ≠ '\n') c h
          · exact hver c h
        · intro c hc
          rw [String.data_append] at hc
          rcases List.mem_append.mp hc with h | h
          · exact (by decide : ∀ c ∈ ("# Commit:    " : String).data, c ≠ '\n') c h
          · exact hcommit c h
        · intro c hc
          rw [String.data_append] at hc
          rcases List.mem_append.mp hc with h | h
          · exact (by decide : ∀ c ∈ ("# Built:     " : String).data, c ≠ '\n') c h
          · exact hdate c h
        · intro c hc
          rw [String.data_append] at hc
          rcases List.mem_append.mp hc with h | h
          · exact (by decide : ∀ c ∈ ("# Last sync: " : String).data, c ≠ '\n') c h
          · exact hts c h
        · decide
        · decide
      · obtain ⟨block, hblock, hline'⟩ := List.mem_flatten.mp hmem
        obtain ⟨sk, hsk, rfl⟩ := List.mem_map.mp hblock
        rcases List.mem_cons.mp hline' with rfl | hline''
        · decide
        · rcases List.mem_cons.mp hline'' with rfl | hkey
          · intro c hc
            rw [String.data_append] at hc
            rcases List.mem_append.mp hc with h | h
            · exact (by decide : ∀ c ∈ ("# Source: " : String).data, c ≠ '\n') c h
            · obtain ⟨fr, hfr, hu⟩ := process_urls frs [] sk hsk
              exact hurls fr hfr c (hu ▸ h)
          · exact (hkeptv line (by
              simp only [keptLines, List.mem_flatten]
              exact ⟨sk.keys, List.mem_map_of_mem _ hsk, hkey⟩)).2.2
    · by_cases hloc : (localPass pl existing (processSources frs []).2.1).1.isEmpty
      · rw [if_pos hloc] at hmem
        cases hmem
      · rw [if_neg hloc] at hmem
        rcases List.mem_cons.mp hmem with rfl | hmem'
        · decide
        · rcases List.mem_cons.mp hmem' with rfl | hmem''
          · decide
          · exact (hlkv line hmem'').1.2.2
  -- the first output scans under the cap and reparses to the kept lines
  have hsplit := splitLines_join _ hlines_nl
  have hok1 : parseString (buildContent frs existing pl ver commit date ts).1 =
      .ok (parseLoop
        (splitLines (buildContent frs existing pl ver commit date ts).1) 1) := by
    have hne : ¬scanTooLong (buildContent frs existing pl ver commit date ts).1
        = true := by
      rw [hcap]
      exact Bool.false_ne_true
    rw [parseString, if_neg hne]
  have hparse : (localParsedKeys
        (buildContent frs existing pl ver commit date ts).1).map (·.line) =
      keptLines (processSources frs []).1 ++
        (localPass pl existing (processSources frs []).2.1).1 := by
    rw [show localParsedKeys (buildContent frs existing pl ver commit date ts).1 =
        (parseLoop
          (splitLines (buildContent frs existing pl ver commit date ts).1) 1).keys
      by unfold localParsedKeys; rw [hok1]]
    rw [hc1, hsplit, parseLoop_keys_lines]
    exact reparse_buildLines _ _ _ _ _ _
      (fun l hl => ⟨(hkeptv l hl).1, (hkeptv l hl).2.1⟩)
      (fun l hl => ⟨(hlkv l hl).1.1, (hlkv l hl).1.2.1⟩)
  -- the first output is non-empty
  have hc1ne : (buildContent frs existing pl ver commit date ts).1 ≠ "" := by
    intro h
    have hd := congrArg String.data h
    rw [hc1, join_data] at hd
    simp only [buildLines, headerLines] at hd
    simp [String.data_append] at hd
  rw [hc2, hc3]
  -- the second local pass returns the first run's preserved lines
  have hloc2 : (localPass pl (buildContent frs existing pl ver commit date ts).1
      (processSources frs []).2.1).1 =
      (localPass pl existing (processSources frs []).2.1).1 := by
    by_cases hpl : pl = true
    · rw [localPass_eq, if_pos ⟨hpl, hc1ne⟩]
      obtain ⟨pa, pb, hab, hpa, hpb⟩ := List.map_eq_append_iff.mp hparse
      rw [hab, dedup_append]
      have hA := dedup_kept_nil "Local" pa (processSources frs []).2.1 ?_
      · rw [hA.1, hA.2, List.nil_append]
        rw [dedup_fresh "Local" pb (processSources frs []).2.1
          (hpb ▸ hlk_nodup) ?_, hpb]
        intro k hk
        have : k.line ∈ (localPass pl existing (processSources frs []).2.1).1 := by
          rw [← hpb]
          exact List.mem_map_of_mem _ hk
        exact (hlkv k.line this).2
      · intro k hk hcon
        have hkin : k.line ∈ keptLines (processSources frs []).1 := by
          rw [← hpa]
          exact List.mem_map_of_mem _ hk
        exact ((seenR_none frs k.line).mp hcon) (hkept_all k.line hkin)
    · have hpl' : pl = false := by
        cases pl
        · rfl
        · exact absurd rfl hpl
      subst hpl'
      rw [localPass_eq, localPass_eq]
      rw [if_neg (by simp), if_neg (by simp)]
  rw [hloc2]

/-- On the success path (lookup ok, all fetches ok, not dry-run) the target
file afterwards holds exactly the built content. -/
theorem syncUser_success_target (env : UserEnv) (pol : Policy) (re : RenderEnv)
    (st : FSState) (frs : List FetchResult)
    (hlk : env.lookup = .ok ()) (hf : fetchAll env.srcOuts = (frs, none)) :
    (syncUser env pol false re st).1.target =
      some (buildContent frs (readContent st) pol.preserveLocalKeys
        re.ver re.commit re.date re.ts).1 := by
  rcases env with ⟨lk, souts⟩
  simp only at hlk hf
  subst hlk
  rcases hb : buildContent frs (readContent st) pol.preserveLocalKeys
    re.ver re.commit re.date re.ts with ⟨content, stats⟩
  rcases hba : (if pol.backupEnabled then
      if 0 < (readContent st).length ∧ readContent st ≠ content then
        (applyRotate (createBackup st re.backupTs re.backupId).1
          pol.backupRetentionCount, (createBackup st re.backupTs re.backupId).2)
      else (st, "")
    else (st, "")) with ⟨st1, bp⟩
  rcases hw : writeAtomic st1 content with ⟨st2, wr⟩
  have htg := writeAtomic_target st1 content
  rw [hw] at htg
  simp only [syncUser, hf, hb, Bool.false_eq_true, if_false]
  rcases hcb : createBackup st re.backupTs re.backupId with ⟨stB, p⟩
  rw [hcb] at hba
  simp only [hcb, hba, hw]
  simpa [hb] using htg

/-- On the success path, when the target already holds exactly the content
about to be built, the run changes nothing: no backup, no write, state
unchanged, `Changed = false`. -/
theorem syncUser_noop (env : UserEnv) (pol : Policy) (re : RenderEnv)
    (st : FSState) (frs : List FetchResult)
    (hlk : env.lookup = .ok ()) (hf : fetchAll env.srcOuts = (frs, none))
    (htg : st.target = some (buildContent frs (readContent st)
      pol.preserveLocalKeys re.ver re.commit re.date re.ts).1) :
    (syncUser env pol false re st).1 = st ∧
    (syncUser env pol false re st).2.changed = false ∧
    (syncUser env pol false re st).2.backupPath = "" := by
  rcases env with ⟨lk, souts⟩
  simp only at hlk hf
  subst hlk
  rcases hb : buildContent frs (readContent st) pol.preserveLocalKeys
    re.ver re.commit re.date re.ts with ⟨content, stats⟩
  have htg' : st.target = some content := by
    rw [hb] at htg
    exact htg
  have hrc : readContent st = content := by
    simp [readContent, htg']
  have hcond : ¬(0 < (readContent st).length ∧ readContent st ≠ content) := by
    simp [hrc]
  have hwa : writeAtomic st content = (st, ⟨false⟩) := by
    unfold writeAtomic
    rcases st with ⟨tg, bk⟩
    simp only at htg'
    rw [htg']
    simp
  simp only [syncUser, hf, hb, Bool.false_eq_true, if_false]
  by_cases hbe : pol.backupEnabled
  · simp only [hbe, if_true, if_neg hcond, hwa]
    exact ⟨trivial, trivial, trivial⟩
  · simp only [hbe, Bool.false_eq_true, if_false, hwa]
    exact ⟨trivial, trivial, trivial⟩

/-- C4 (amended).  Two consecutive successful runs with unchanged remote
source contents and an unmodified-in-between local file: the first run
leaves the target holding exactly the built content; the second build
differs from the first output only in the embedded timestamp (it equals the
first build with the new timestamp plugged in); and — exactly when the
second run embeds the same timestamp string as the first — the second run
reports the file unchanged (`Changed = false`), creates no backup, and
leaves the filesystem state identical.  (When the timestamps differ, the
contents differ in the `Last sync` line, so the second run writes and — with
backups enabled — creates a backup; see the counterexample.)  The first
run's output is asked to scan under the 64 KiB token cap (`hcap`) — true of
program-produced content — so the second run's local reparse passes the
`err == nil` guard. -/
theorem claim4_idempotence (env : UserEnv) (pol : Policy) (re : RenderEnv)
    (st0 : FSState) (frs : List FetchResult) (ts' bts' bid' : String)
    (hlk : env.lookup = .ok ()) (hf : fetchAll env.srcOuts = (frs, none))
    (hkeys : ∀ fr ∈ frs, ∀ k ∈ fr.keys,
      goTrim k.line = k.line ∧ isValidKey k.line = true ∧
        ∀ c ∈ k.line.data, c ≠ '\n')
    (hurls : ∀ fr ∈ frs, ∀ c ∈ fr.source.url.data, c ≠ '\n')
    (hver : ∀ c ∈ re.ver.data, c ≠ '\n')
    (hcommit : ∀ c ∈ re.commit.data, c ≠ '\n')
    (hdate : ∀ c ∈ re.date.data, c ≠ '\n')
    (hts : ∀ c ∈ re.ts.data, c ≠ '\n')
    (hcap : scanTooLong (buildContent frs (readContent st0)
      pol.preserveLocalKeys re.ver re.commit re.date re.ts).1 = false) :
    (syncUser env pol false re st0).1.target =
      some (buildContent frs (readContent st0) pol.preserveLocalKeys
        re.ver re.commit re.date re.ts).1 ∧
    (buildContent frs (buildContent frs (readContent st0)
        pol.preserveLocalKeys re.ver re.commit re.date re.ts).1
        pol.preserveLocalKeys re.ver re.commit re.date ts').1 =
      (buildContent frs (readContent st0) pol.preserveLocalKeys
        re.ver re.commit re.date ts').1 ∧
    (ts' = re.ts →
      (syncUser env pol false
        { re with ts := ts', backupTs := bts', backupId := bid' }
        (syncUser env pol false re st0).1).1 = (syncUser env pol false re st0).1 ∧
      (syncUser env pol false
        { re with ts := ts', backupTs := bts', backupId := bid' }
        (syncUser env pol false re st0).1).2.changed = false ∧
      (syncUser env pol false
        { re with ts := ts', backupTs := bts', backupId := bid' }
        (syncUser env pol false re st0).1).2.backupPath = "") := by
  have h1 := syncUser_success_target env pol re st0 frs hlk hf
  have h2 := buildContent_stable frs (readContent st0) pol.preserveLocalKeys
    re.ver re.commit re.date re.ts ts' hkeys hurls hver hcommit hdate hts hcap
  refine ⟨h1, h2, ?_⟩
  intro hts'
  subst hts'
  have hrc1 : readContent (syncUser env pol false re st0).1 =
      (buildContent frs (readContent st0) pol.preserveLocalKeys
        re.ver re.commit re.date re.ts).1 := by
    simp [readContent, h1]
  refine syncUser_noop env pol _ _ frs hlk hf ?_
  dsimp only
  rw [hrc1, h2]
  exact h1

/-- Inputs for the claim C4 counterexample and witness: one healthy source
and a pre-existing local file. -/
def envW4 : UserEnv :=
  ⟨.ok (), [(⟨"https://a.example"⟩, .response 200 "ssh-rsa KEY1 a\n")]⟩

/-- Backups on, local preservation off (claim C4 inputs). -/
def polW4 : Policy := ⟨true, 10, false⟩

/-- First-run render metadata, timestamp `T1` (claim C4 inputs). -/
def reW4a : RenderEnv := ⟨"1.0", "abc", "2024", "T1", "bt1", "aaaaaa"⟩

/-- Second-run render metadata, timestamp `T2` (claim C4 inputs). -/
def reW4b : RenderEnv := ⟨"1.0", "abc", "2024", "T2", "bt2", "bbbbbb"⟩

/-- Pre-run target state (claim C4 inputs). -/
def st0W4 : FSState := ⟨some "ssh-rsa OLD o\n", []⟩

set_option maxRecDepth 100000 in
/-- The claim as frozen is false on the code: with an unchanged source and
an unmodified local file, a second run whose embedded timestamp differs
(`T2` vs `T1`) reports the file changed and creates a backup, because the
`# Last sync:` line makes the contents differ byte-wise. -/
theorem claim4_counterexample :
    (syncUser envW4 polW4 false reW4b
      (syncUser envW4 polW4 false reW4a st0W4).1).2.changed = true ∧
    (syncUser envW4 polW4 false reW4b
      (syncUser envW4 polW4 false reW4a st0W4).1).2.backupPath ≠ "" := by
  constructor
  · decide
  · decide

set_option maxRecDepth 100000 in
theorem claim4_witness :
    (syncUser envW4 polW4 false
      { reW4a with ts := "T1", backupTs := "bt2", backupId := "bbbbbb" }
      (syncUser envW4 polW4 false reW4a st0W4).1).1 =
      (syncUser envW4 polW4 false reW4a st0W4).1 ∧
    (syncUser envW4 polW4 false
      { reW4a with ts := "T1", backupTs := "bt2", backupId := "bbbbbb" }
      (syncUser envW4 polW4 false reW4a st0W4).1).2.changed = false ∧
    (syncUser envW4 polW4 false
      { reW4a with ts := "T1", backupTs := "bt2", backupId := "bbbbbb" }
      (syncUser envW4 polW4 false reW4a st0W4).1).2.backupPath = "" := by
  have h := claim4_idempotence envW4 polW4 reW4a st0W4
    (fetchAll envW4.srcOuts).1 "T1" "bt2" "bbbbbb"
    rfl (by decide) (by decide) (by decide) (by decide) (by decide)
    (by decide) (by decide) (by decide)
  exact h.2.2 rfl

end AuthKeySync
